import Mathlib

/-!
Verification of the natural-language specification of the ebook-analysis
repository (src/main.py) against a shallow embedding of its code in Lean 4.

The embedding works on `List Char` (Python `str` values are sequences of
Unicode code points, exactly what Lean's `String.data` is).  Python standard
library primitives used by the source (`str.lower`, `str.replace`, `re.sub`,
`str.split`, `str.strip`, `html.unescape`, `sorted`, `Counter`, UTF-8
decoding) are modelled explicitly below; each model carries a doc comment
stating its scope.
-/

namespace EbookAnalysis

/-- Python whitespace, as used by `str.split`, `str.strip` and by `re`'s
class `\s` on `str` patterns (Unicode whitespace set). -/
def pyWhitespace (c : Char) : Bool :=
  decide (c = ' ' ∨ c = '\t' ∨ c = '\n' ∨ c = '\x0b' ∨ c = '\x0c' ∨ c = '\r' ∨
    c = '\x1c' ∨ c = '\x1d' ∨ c = '\x1e' ∨ c = '\x1f' ∨ c = '\x85' ∨ c = '\xa0' ∨
    c = '\u1680' ∨ ('\u2000' ≤ c ∧ c ≤ '\u200a') ∨ c = '\u2028' ∨ c = '\u2029' ∨
    c = '\u202f' ∨ c = '\u205f' ∨ c = '\u3000')

/-- Python `str.lower`, modelled on the ASCII and Latin-1 letter ranges (the
ranges exercised by this repository's Portuguese text: `A`-`Z` and the
accented capitals `À`-`Þ` except `×` map 32 code points up); all other
characters are returned unchanged. -/
def pyLower (c : Char) : Char :=
  if 'A' ≤ c ∧ c ≤ 'Z' then Char.ofNat (c.toNat + 32)
  else if 'À' ≤ c ∧ c ≤ 'Þ' ∧ c ≠ '×' then Char.ofNat (c.toNat + 32)
  else c

/-- `startsWithL pat s` holds when `pat` is an initial segment of `s`. -/
def startsWithL : List Char → List Char → Bool
  | [], _ => true
  | _ :: _, [] => false
  | a :: as, b :: bs => if a = b then startsWithL as bs else false

/-- The named/numeric entities recognised by the model of Python's
`html.unescape`: each pair is (the characters following `&`, the decoded
character). Python's real table is much larger; only `&`-initiated
sequences are ever rewritten, which is the only fact the proofs use. -/
def entityTable : List (List Char × Char) :=
  [("amp;".data, '&'), ("lt;".data, '<'), ("gt;".data, '>'),
   ("quot;".data, '"'), ("apos;".data, '\''), ("#39;".data, '\''),
   ("#32;".data, ' ')]

/-- Model of Python's `html.unescape` (structural via a fuel argument that is
always instantiated with the input length, which suffices since every step
consumes at least one character). -/
def unescapeFuel : Nat → List Char → List Char
  | _, [] => []
  | 0, l => l
  | fuel + 1, c :: rest =>
    if c = '&' then
      match entityTable.find? (fun e => startsWithL e.1 rest) with
      | some e => e.2 :: unescapeFuel fuel (rest.drop e.1.length)
      | none => '&' :: unescapeFuel fuel rest
    else c :: unescapeFuel fuel rest

def htmlUnescape (l : List Char) : List Char := unescapeFuel l.length l

/-- Core scan of Python `str.replace old new` for a non-empty `old`:
replace every non-overlapping occurrence, scanning left to right; a match
consumes its characters. Fuel is always instantiated with the input length. -/
def replaceFuel (pat rep : List Char) : Nat → List Char → List Char
  | _, [] => []
  | 0, l => l
  | fuel + 1, c :: cs =>
    if startsWithL pat (c :: cs) then
      rep ++ replaceFuel pat rep fuel (cs.drop (pat.length - 1))
    else c :: replaceFuel pat rep fuel cs

/-- Python `str.replace old new` on character lists. For an empty `old`,
Python inserts `new` before every character and at the end. -/
def listReplace (s pat rep : List Char) : List Char :=
  if pat.isEmpty then s.foldr (fun c acc => rep ++ c :: acc) rep
  else replaceFuel pat rep s.length s

/-- The `PORTUGUESE_COMPOUNDS` dict of src/main.py, as an association list in
the dict's insertion order (Python dicts preserve insertion order). -/
def PORTUGUESE_COMPOUNDS : List (String × String) :=
  [("o que", "o_que"),
   ("por que", "por_que"),
   ("para que", "para_que"),
   ("de acordo com", "de_acordo_com"),
   ("ao lado de", "ao_lado_de"),
   ("em frente", "em_frente"),
   ("em frente a", "em_frente_a"),
   ("dentro de", "dentro_de"),
   ("fora de", "fora_de"),
   ("em cima de", "em_cima_de"),
   ("em baixo de", "em_baixo_de"),
   ("a partir de", "a_partir_de"),
   ("até logo", "até_logo"),
   ("com certeza", "com_certeza"),
   ("mais ou menos", "mais_ou_menos"),
   ("todo mundo", "todo_mundo"),
   ("todo dia", "todo_dia"),
   ("boa noite", "boa_noite"),
   ("bom dia", "bom_dia"),
   ("boa tarde", "boa_tarde"),
   ("de vez em quando", "de_vez_em_quando"),
   ("de repente", "de_repente"),
   ("às vezes", "às_vezes"),
   ("por isso", "por_isso"),
   ("ou seja", "ou_seja"),
   ("pelo menos", "pelo_menos"),
   ("assim que", "assim_que"),
   ("mesmo que", "mesmo_que"),
   ("antes de", "antes_de"),
   ("depois de", "depois_de"),
   ("tem que", "tem_que"),
   ("pode ser", "pode_ser"),
   ("quer dizer", "quer_dizer"),
   ("ainda não", "ainda_não"),
   ("já não", "já_não"),
   ("nem mesmo", "nem_mesmo")]

/-- Stable insertion of one element: `a` goes after every existing element
`b` with `le b a` (so elements inserted later stay after equal earlier
ones, exactly the stability contract of Python's `sorted`). -/
def insertStable (le : α → α → Bool) (a : α) : List α → List α
  | [] => [a]
  | b :: bs => if le b a then b :: insertStable le a bs else a :: b :: bs

/-- Stable sort by a total boolean relation `le` (`le x y` = `x` may come
before `y`); computes the same list as Python's stable `sorted`. -/
def stableSort (le : α → α → Bool) (l : List α) : List α :=
  l.foldl (fun acc a => insertStable le a acc) []

/-- `sorted(PORTUGUESE_COMPOUNDS.keys(), key=len, reverse=True)`:
descending length, equal lengths keep dict order (stability). -/
def sortedCompoundKeys : List String :=
  stableSort (fun a b => decide (b.length ≤ a.length))
    (PORTUGUESE_COMPOUNDS.map (fun p => p.1))

/-- `replace_compounds` of src/main.py: lowercase, then for each compound
key, longest first, replace every occurrence with the dict's value. -/
def replaceCompoundsChars (text : List Char) : List Char :=
  let processed := text.map pyLower
  sortedCompoundKeys.foldl
    (fun t compound =>
      listReplace t compound.data
        (((List.lookup compound PORTUGUESE_COMPOUNDS).getD "").data))
    processed

def replace_compounds (text : String) : String :=
  String.mk (replaceCompoundsChars text.data)

/-- The character class kept by `re.sub(r"[^a-z...accents\s_]", " ", text)`
in `clean_text`: ASCII lowercase letters, the fixed accented-letter
allow-list, whitespace, and underscore. -/
def keptChar (c : Char) : Bool :=
  decide ('a' ≤ c ∧ c ≤ 'z') ||
  ("áéíóúâêîôûãõàèìòùäëïöüçñ".data.contains c) ||
  pyWhitespace c || decide (c = '_')

/-- `re.sub(r"[^a-záéíóúâêîôûãõàèìòùäëïöüçñ\s_]", " ", text)`: every
character outside the kept class becomes a single space. -/
def stripSpecials (l : List Char) : List Char :=
  l.map (fun c => if keptChar c then c else ' ')

/-- `re.sub(r"\s+", " ", text)`: each maximal run of whitespace becomes one
space. The boolean argument records whether the scan is inside a run. -/
def collapseAux (inRun : Bool) : List Char → List Char
  | [] => []
  | c :: cs =>
    if pyWhitespace c then
      if inRun then collapseAux true cs else ' ' :: collapseAux true cs
    else c :: collapseAux false cs

def collapseWs (l : List Char) : List Char := collapseAux false l

/-- Python `str.strip()`: remove leading and trailing whitespace. -/
def pyStrip (l : List Char) : List Char :=
  ((l.dropWhile pyWhitespace).reverse.dropWhile pyWhitespace).reverse

/-- `clean_text` of src/main.py on character lists: unescape entities,
lowercase, fold compounds, strip special characters to spaces, collapse
whitespace, trim. -/
def cleanChars (text : List Char) : List Char :=
  pyStrip (collapseWs (stripSpecials
    (replaceCompoundsChars ((htmlUnescape text).map pyLower))))

def clean_text (text : String) : String := String.mk (cleanChars text.data)

/-- Python `str.split()` (no argument): split on runs of whitespace,
discarding empty pieces. The accumulator holds the current word reversed. -/
def splitAux (cur : List Char) : List Char → List (List Char)
  | [] => if cur.isEmpty then [] else [cur.reverse]
  | c :: cs =>
    if pyWhitespace c then
      if cur.isEmpty then splitAux [] cs else cur.reverse :: splitAux [] cs
    else splitAux (c :: cur) cs

def pySplit (l : List Char) : List (List Char) := splitAux [] l

def pySplitStr (s : String) : List String := (pySplit s.data).map String.mk

/-- One `Counter` increment: bump the word's count, or append it with
count 1, preserving first-encounter key order as Python dicts do. -/
def bumpCount : List (String × Nat) → String → List (String × Nat)
  | [], w => [(w, 1)]
  | (k, n) :: rest, w =>
    if k = w then (k, n + 1) :: rest else (k, n) :: bumpCount rest w

/-- `get_word_frequencies` of src/main.py: `Counter(text.split())` as an
association list in first-encounter order. -/
def get_word_frequencies (text : String) : List (String × Nat) :=
  (pySplitStr text).foldl bumpCount []

/-- A UTF-8 continuation byte. -/
def utf8Cont (b : Nat) : Bool := decide (0x80 ≤ b ∧ b < 0xC0)

/-- Strict UTF-8 decoding of a byte sequence (bytes as `Nat`s below 256), as
Python's `bytes.decode("utf-8")`: rejects truncated sequences, stray
continuation bytes, overlong encodings and surrogates. Returns `none`
exactly when Python raises `UnicodeDecodeError`. -/
def utf8Decode : List Nat → Option (List Char)
  | [] => some []
  | b1 :: bs =>
    if b1 < 0x80 then
      (utf8Decode bs).map (fun cs => Char.ofNat b1 :: cs)
    else if b1 < 0xC2 then none
    else if b1 < 0xE0 then
      match bs with
      | b2 :: bs2 =>
        if utf8Cont b2 then
          (utf8Decode bs2).map (fun cs =>
            Char.ofNat ((b1 - 0xC0) * 0x40 + (b2 - 0x80)) :: cs)
        else none
      | [] => none
    else if b1 < 0xF0 then
      match bs with
      | b2 :: b3 :: bs3 =>
        if (if b1 = 0xE0 then decide (0xA0 ≤ b2 ∧ b2 < 0xC0)
            else if b1 = 0xED then decide (0x80 ≤ b2 ∧ b2 < 0xA0)
            else utf8Cont b2) && utf8Cont b3 then
          (utf8Decode bs3).map (fun cs =>
            Char.ofNat ((b1 - 0xE0) * 0x1000 + (b2 - 0x80) * 0x40 + (b3 - 0x80)) :: cs)
        else none
      | _ => none
    else if b1 < 0xF5 then
      match bs with
      | b2 :: b3 :: b4 :: bs4 =>
        if (if b1 = 0xF0 then decide (0x90 ≤ b2 ∧ b2 < 0xC0)
            else if b1 = 0xF4 then decide (0x80 ≤ b2 ∧ b2 < 0x90)
            else utf8Cont b2) && utf8Cont b3 && utf8Cont b4 then
          (utf8Decode bs4).map (fun cs =>
            Char.ofNat ((b1 - 0xF0) * 0x40000 + (b2 - 0x80) * 0x1000 +
              (b3 - 0x80) * 0x40 + (b4 - 0x80)) :: cs)
        else none
      | _ => none
    else none

/-- UTF-8 encoding of a string, used to build concrete byte inputs for the
end-to-end scenarios. -/
def utf8EncodeChar (c : Char) : List Nat :=
  let n := c.toNat
  if n < 0x80 then [n]
  else if n < 0x800 then [0xC0 + n / 0x40, 0x80 + n % 0x40]
  else if n < 0x10000 then
    [0xE0 + n / 0x1000, 0x80 + (n / 0x40) % 0x40, 0x80 + n % 0x40]
  else
    [0xF0 + n / 0x40000, 0x80 + (n / 0x1000) % 0x40,
     0x80 + (n / 0x40) % 0x40, 0x80 + n % 0x40]

def utf8Encode (s : String) : List Nat := (s.data.map utf8EncodeChar).flatten

/-- One token of parsed markup: an open tag (name only, attributes are
ignored), a close tag, or a run of document text. -/
inductive HtmlTok where
  | tagOpen (tagName : String)
  | tagClose (tagName : String)
  | text (chars : List Char)
deriving DecidableEq

/-- Classify the characters found between a `<` and the next `>` as an open
or close tag; tag names are lowercased as `html.parser` does, and anything
after the name (attributes) is dropped. -/
def tagNameOf (content : List Char) : HtmlTok :=
  match content with
  | '/' :: rest =>
    .tagClose (String.mk ((rest.takeWhile
      (fun c => !(pyWhitespace c) && !(decide (c = '/')))).map pyLower))
  | _ =>
    .tagOpen (String.mk ((content.takeWhile
      (fun c => !(pyWhitespace c) && !(decide (c = '/')))).map pyLower))

/-- Markup tokenizer modelling the slice of BeautifulSoup's `html.parser`
behavior this program relies on: the document is split into tags and text
runs. `insideTag` says whether the scan is between `<` and `>`; `acc`
accumulates the current run in reverse. Comments, CDATA and malformed
markup are outside the modelled slice. -/
def tokenizeAux (insideTag : Bool) (acc : List Char) : List Char → List HtmlTok
  | [] =>
    if insideTag then [tagNameOf acc.reverse]
    else if acc.isEmpty then [] else [.text acc.reverse]
  | c :: cs =>
    if insideTag then
      if c = '>' then tagNameOf acc.reverse :: tokenizeAux false [] cs
      else tokenizeAux true (c :: acc) cs
    else
      if c = '<' then
        (if acc.isEmpty then [] else [.text acc.reverse]) ++ tokenizeAux true [] cs
      else tokenizeAux false (c :: acc) cs

def tokenizeHtml (l : List Char) : List HtmlTok := tokenizeAux false [] l

/-- `html_to_text` of src/main.py: BeautifulSoup `get_text()` after
`decompose()`ing every `script` and `style` element — the concatenation of
all text runs, dropping the text inside script/style elements. The
`skipping` argument holds the name of the element being dropped. -/
def extractTextAux (skipping : Option String) : List HtmlTok → List Char
  | [] => []
  | t :: rest =>
    match skipping with
    | some n =>
      match t with
      | .tagClose m =>
        if m = n then extractTextAux none rest else extractTextAux (some n) rest
      | _ => extractTextAux (some n) rest
    | none =>
      match t with
      | .text s => s ++ extractTextAux none rest
      | .tagOpen m =>
        if m = "script" ∨ m = "style" then extractTextAux (some m) rest
        else extractTextAux none rest
      | .tagClose _ => extractTextAux none rest

def html_to_text (content : List Char) : List Char :=
  extractTextAux none (tokenizeHtml content)

/-- Text content of one element: the concatenation of text runs until the
matching close tag (model of `Tag.get_text()` for the documents in scope). -/
def elementText (n : String) : List HtmlTok → List Char
  | [] => []
  | .tagClose m :: rest => if m = n then [] else elementText n rest
  | .text s :: rest => s ++ elementText n rest
  | .tagOpen _ :: rest => elementText n rest

/-- `soup.find(names)`: the first open tag whose name is in `names`,
returning its text content; `none` when no such element exists. A found tag
is returned even when its text is empty, because BeautifulSoup `Tag`
objects are always truthy (`Tag.__bool__` returns `True` unconditionally),
so the source's `if title:` only tests presence. -/
def findText (names : List String) : List HtmlTok → Option (List Char)
  | [] => none
  | .tagOpen m :: rest =>
    if names.contains m then some (elementText m rest) else findText names rest
  | _ :: rest => findText names rest

/-- One content part of the e-book container: its internal name, whether its
media type marks it as a document (`ebooklib.ITEM_DOCUMENT`), and its raw
bytes. -/
structure EpubItem where
  itemName : String
  isDocument : Bool
  content : List Nat
deriving DecidableEq

/-- An e-book container whose manifest lists its items in order. -/
structure EpubBook where
  items : List EpubItem
deriving DecidableEq

/-- Chapter title derivation of `analyze_epub` (src/main.py lines 163-171):
the first `title` element's text when a `title` element exists (empty text
still counts — a found Tag is truthy); otherwise the first `h1`/`h2`
element's text; otherwise the item's internal file name. -/
def chapterTitle (toks : List HtmlTok) (itemName : String) : String :=
  match findText ["title"] toks with
  | some t => String.mk t
  | none =>
    match findText ["h1", "h2"] toks with
    | some t => String.mk t
    | none => itemName

/-- The body of `analyze_epub`'s item loop. A `UnicodeDecodeError` from
`item.get_content().decode("utf-8")` is modelled as `none`: the source has
no per-item handler, so the exception escapes the loop (and the records
already accumulated) to the function's single `except` clause. -/
def analyzeItems : List EpubItem → Option (List (String × List (String × Nat)))
  | [] => some []
  | item :: rest =>
    match utf8Decode item.content with
    | none => none
    | some content =>
      let toks := tokenizeHtml content
      let title := chapterTitle toks item.itemName
      let cleaned := clean_text (String.mk (html_to_text content))
      let freqs := get_word_frequencies cleaned
      (analyzeItems rest).map (fun others => (title, freqs) :: others)

/-- `analyze_epub` of src/main.py. `none` models `epub.read_epub` raising on
an unreadable or invalid container; any exception raised in the loop —
including a decode error on any single item — reaches the same single
`except` clause, which logs and returns the empty list. -/
def analyze_epub (book : Option EpubBook) : List (String × List (String × Nat)) :=
  match book with
  | none => []
  | some b =>
    match analyzeItems (b.items.filter (fun i => i.isDocument)) with
    | none => []
    | some analyses => analyses

/-- Python `re`'s `\w` on `str` patterns (Unicode word characters), modelled
on the ranges this program's titles can contain: ASCII letters and digits,
underscore, and the accented letters of the Portuguese allow-list in both
cases. -/
def wordCharW (c : Char) : Bool :=
  decide ('a' ≤ c ∧ c ≤ 'z') || decide ('A' ≤ c ∧ c ≤ 'Z') ||
  decide ('0' ≤ c ∧ c ≤ '9') || decide (c = '_') ||
  ("áéíóúâêîôûãõàèìòùäëïöüçñ".data.contains c) ||
  ("ÁÉÍÓÚÂÊÎÔÛÃÕÀÈÌÒÙÄËÏÖÜÇÑ".data.contains c)

/-- Filename sanitization of `export_to_csv`: `re.sub(r"[^\w\s-]", "", t)`
deletes every character that is not a word character, whitespace or hyphen
(deletes, unlike `clean_text`, which substitutes spaces), then
`.replace(" ", "_")` turns each plain space into an underscore. -/
def sanitizeTitle (title : String) : String :=
  String.mk ((title.data.filter
    (fun c => wordCharW c || pyWhitespace c || decide (c = '-'))).map
    (fun c => if c = ' ' then '_' else c))

/-- Python string comparison `a <= b`: code-point lexicographic order. -/
def lexLe : List Char → List Char → Bool
  | [], _ => true
  | _ :: _, [] => false
  | a :: as, b :: bs => if a = b then lexLe as bs else decide (a < b)

def strLe (a b : String) : Bool := lexLe a.data b.data

/-- The per-chapter sort key of `export_to_csv`: under `frequency`,
`key=lambda x: (-x[1], x[0])` — descending count, with ascending code-point
word order breaking ties. -/
def freqLe (x y : String × Nat) : Bool :=
  decide (y.2 < x.2) || (decide (x.2 = y.2) && strLe x.1 y.1)

/-- `sorted(filtered_frequencies.items(), ...)` under the two policies:
anything other than `"frequency"` falls to the alphabetical branch. -/
def sortChapterRows (sortBy : String) (rows : List (String × Nat)) :
    List (String × Nat) :=
  if sortBy = "frequency" then stableSort freqLe rows
  else stableSort (fun x y => strLe x.1 y.1) rows

/-- The `min_frequency` filter: keep the pairs with `freq >= min_frequency`. -/
def filterFreqs (minFreq : Nat) (freqs : List (String × Nat)) :
    List (String × Nat) :=
  freqs.filter (fun p => decide (minFreq ≤ p.2))

/-- The per-chapter CSV writes of `export_to_csv`, in loop order: one file
per chapter record, named from the sanitized title, holding the filtered,
sorted (word, count) rows. -/
def chapterFiles (chapters : List (String × List (String × Nat)))
    (minFreq : Nat) (sortBy : String) : List (String × List (String × Nat)) :=
  chapters.map (fun ch =>
    (sanitizeTitle ch.1 ++ "_frequencies.csv",
     sortChapterRows sortBy (filterFreqs minFreq ch.2)))

/-- What a path holds after a sequence of writes: the last write wins
(an earlier file at the same path is overwritten). -/
def fileOnDisk (writes : List (String × α)) (path : String) : Option α :=
  List.lookup path writes.reverse

/-- Python dict assignment `d[k] = v`: replace the value at an existing key
in place, or append a new binding. -/
def dictInsert (d : List (String × α)) (k : String) (v : α) :
    List (String × α) :=
  match d with
  | [] => [(k, v)]
  | (k0, v0) :: rest =>
    if k0 = k then (k, v) :: rest else (k0, v0) :: dictInsert rest k v

/-- `chapter_word_counts` of `export_to_csv`: a dict keyed by chapter title
holding that chapter's filtered frequencies; a later chapter with the same
title overwrites the earlier chapter's entry. -/
def chapterWordCounts (chapters : List (String × List (String × Nat)))
    (minFreq : Nat) : List (String × List (String × Nat)) :=
  chapters.foldl (fun d ch => dictInsert d ch.1 (filterFreqs minFreq ch.2)) []

/-- Append a word unless already present (set insertion with deterministic
first-encounter order; the order is irrelevant downstream because the sort
key is injective on distinct words). -/
def insertNew (acc : List String) (w : String) : List String :=
  if acc.contains w then acc else acc ++ [w]

/-- `all_words`: the union of all filtered per-chapter vocabularies. -/
def allWords (chapters : List (String × List (String × Nat))) (minFreq : Nat) :
    List String :=
  chapters.foldl
    (fun acc ch => ((filterFreqs minFreq ch.2).map (fun p => p.1)).foldl insertNew acc)
    []

/-- `total_frequencies[w]`: the Counter summing `w`'s counts over the values
of `chapter_word_counts` (one value per distinct title). -/
def totalFrequency (cwc : List (String × List (String × Nat))) (w : String) :
    Nat :=
  (cwc.map (fun kv => (List.lookup w kv.2).getD 0)).sum

/-- The combined-table word order: under `frequency`,
`key=lambda x: (-total_frequencies[x], x)`; otherwise alphabetical. -/
def sortedAllWords (chapters : List (String × List (String × Nat)))
    (minFreq : Nat) (sortBy : String) : List String :=
  let cwc := chapterWordCounts chapters minFreq
  if sortBy = "frequency" then
    stableSort
      (fun x y =>
        decide (totalFrequency cwc y < totalFrequency cwc x) ||
        (decide (totalFrequency cwc x = totalFrequency cwc y) && strLe x y))
      (allWords chapters minFreq)
  else stableSort strLe (allWords chapters minFreq)

/-- One data row of `combined_analysis.csv` for word `w`: the counts looked
up per chapter via `chapter_word_counts[chapter_title].get(word, 0)` (a
duplicated title therefore reads the last same-titled chapter's counts in
every one of its columns), followed by their sum. -/
def combinedRow (chapters : List (String × List (String × Nat)))
    (minFreq : Nat) (w : String) : List Nat × Nat :=
  let cwc := chapterWordCounts chapters minFreq
  let counts := chapters.map
    (fun ch => (List.lookup w ((List.lookup ch.1 cwc).getD [])).getD 0)
  (counts, counts.sum)

/-- The header row of `combined_analysis.csv`. -/
def combinedHeader (chapters : List (String × List (String × Nat))) :
    List String :=
  "Word" :: (chapters.map (fun ch => ch.1) ++ ["Total"])

/-- The data rows of `combined_analysis.csv`, in sorted word order. -/
def combinedRows (chapters : List (String × List (String × Nat)))
    (minFreq : Nat) (sortBy : String) : List (String × List Nat × Nat) :=
  (sortedAllWords chapters minFreq sortBy).map
    (fun w => (w, combinedRow chapters minFreq w))

/-- Every file write performed by `export_to_csv`, in order: the per-chapter
CSVs, then `combined_analysis.csv` — which is always written, even for an
empty chapter list (the directory and the combined file are created
unconditionally). File contents are modelled as rows of CSV cells. -/
def csvFilesWritten (chapters : List (String × List (String × Nat)))
    (minFreq : Nat) (sortBy : String) : List (String × List (List String)) :=
  (chapterFiles chapters minFreq sortBy).map
    (fun f => (f.1, ["Word", "Frequency"] :: f.2.map (fun r => [r.1, toString r.2])))
  ++ [("combined_analysis.csv",
       combinedHeader chapters ::
         (combinedRows chapters minFreq sortBy).map
           (fun r => r.1 :: (r.2.1.map toString ++ [toString r.2.2])))]

/-- Steps 2-5 of the normalizer in the claim's enumeration — lowercasing,
character stripping, whitespace collapsing, trimming — applied in the
source's order (compound folding, the remaining step, is deliberately not
part of this list). -/
def steps2to5 (s : String) : String :=
  String.mk (pyStrip (collapseWs (stripSpecials (s.data.map pyLower))))

/-- The number of positions of `l` at which `pat` starts as a substring. -/
def occCount (pat l : List Char) : Nat :=
  ((List.range (l.length + 1)).filter (fun i => startsWithL pat (l.drop i))).length

/-- `pat` occurs somewhere in `l` as a contiguous substring. -/
def OccursIn (pat l : List Char) : Prop := ∃ u v, l = u ++ pat ++ v

/-- The character adjacent to a compound occurrence normalizes to
whitespace: it is either stripped (not kept) or already whitespace. `none`
(the occurrence touches the end of the text) also qualifies. -/
def boundaryOk : Option Char → Bool
  | none => true
  | some c => !keptChar c || pyWhitespace c

/-- No two adjacent whitespace characters (the shape `re.sub(r"\s+", " ")`
leaves behind, stated as a `Chain'` relation). -/
def noTwoWs (a b : Char) : Prop :=
  pyWhitespace a = true → pyWhitespace b = false

/-- The quantity the combined-table claim compares against: the sum over
the input sequence of `w`'s filtered per-chapter counts. -/
def perChapterFilteredSum (chapters : List (String × List (String × Nat)))
    (minFreq : Nat) (w : String) : Nat :=
  (chapters.map (fun ch => (List.lookup w (filterFreqs minFreq ch.2)).getD 0)).sum

/-! ### Concrete scenario data -/

/-- The content part of the spec's end-to-end scenario. -/
def c1Content : String :=
  "<title>Ch1</title><body><p>o que é isso? O QUE é isso!</p></body>"

/-- The scenario container: one document part holding `c1Content` as
UTF-8 bytes. -/
def c1Book : Option EpubBook :=
  some ⟨[⟨"ch1.xhtml", true, utf8Encode c1Content⟩]⟩

/-- A document part whose bytes decode fine. -/
def goodPart : EpubItem := ⟨"ch1.xhtml", true, utf8Encode c1Content⟩

/-- A document part whose bytes are not valid UTF-8 (a lone 0xFF byte). -/
def badPart : EpubItem := ⟨"bad.xhtml", true, [0xFF]⟩

/-- Two chapters sharing the title `A`, with different word counts. -/
def dupChapters : List (String × List (String × Nat)) :=
  [("A", [("x", 1)]), ("A", [("x", 2), ("y", 1)])]

/-- A container whose only document part has an empty `<title>` element and
a non-empty first heading. -/
def c7Book : Option EpubBook :=
  some ⟨[⟨"intro.xhtml", true,
    utf8Encode "<title></title><h1>Intro</h1><p>x</p>"⟩]⟩

/-! ### Lemmas: the extractor's error path -/

theorem analyzeItems_eq_none {items : List EpubItem} {it : EpubItem}
    (hmem : it ∈ items) (hbad : utf8Decode it.content = none) :
    analyzeItems items = none := by
  induction items with
  | nil => cases hmem
  | cons x rest ih =>
    rcases List.mem_cons.mp hmem with h | h
    · subst h
      simp [analyzeItems, hbad]
    · cases hx : utf8Decode x.content with
      | none => simp [analyzeItems, hx]
      | some c => simp [analyzeItems, hx, ih h]

/-! ### Claim theorems: C9, C2, C3 -/

/-- Claim C9 (confirmed): the normalizer `clean_text` is total — it is a
function returning a string on every input string — and its output may be
the empty string on a non-empty input with no qualifying characters. -/
theorem c9_normalize_total :
    (∀ s : String, ∃ t : String, clean_text s = t) ∧
    (∃ s : String, s ≠ "" ∧ clean_text s = "") :=
  ⟨fun s => ⟨clean_text s, rfl⟩, ⟨"123", by decide⟩⟩

/-- Claim C2 (counterexample): with a valid document part and an
invalid-UTF-8 document part in the same container, the run returns no
chapter records at all — the valid part's record is discarded — even
though the valid part alone produces a record. -/
theorem c2_counterexample :
    analyze_epub (some ⟨[goodPart, badPart]⟩) = [] ∧
    analyze_epub (some ⟨[goodPart]⟩) ≠ [] := by decide

/-- Claim C2 (amended): a UTF-8 decode failure on any document part of the
container escapes the item loop to the function-level handler, so the whole
run returns the empty list: the failing part is not skipped individually
and the other parts' records are discarded. -/
theorem c2_amended (b : EpubBook) (it : EpubItem) (hmem : it ∈ b.items)
    (hdoc : it.isDocument = true) (hbad : utf8Decode it.content = none) :
    analyze_epub (some b) = [] := by
  have hmem' : it ∈ b.items.filter (fun i => i.isDocument) :=
    List.mem_filter.mpr ⟨hmem, by simp [hdoc]⟩
  simp [analyze_epub, analyzeItems_eq_none hmem' hbad]

theorem c2_amended_witness :
    badPart ∈ (⟨[goodPart, badPart]⟩ : EpubBook).items ∧
    badPart.isDocument = true ∧ utf8Decode badPart.content = none ∧
    analyze_epub (some ⟨[goodPart, badPart]⟩) = [] :=
  ⟨by decide, by decide, by decide,
   c2_amended ⟨[goodPart, badPart]⟩ badPart (by decide) (by decide) (by decide)⟩

/-- Claim C3 (counterexample): when the container fails to open, the
chapter list is indeed empty, but the exporter still writes a file — the
combined CSV — so "writes zero files" fails on the code. -/
theorem c3_counterexample :
    analyze_epub none = [] ∧
    csvFilesWritten (analyze_epub none) 1 "frequency" ≠ [] := by decide

/-- Claim C3 (amended): a container that fails to open yields an empty
chapter list and no per-chapter files, and the failure is degraded to a
value rather than propagated; the exporter nevertheless creates exactly one
file, the combined CSV holding only its header row. -/
theorem c3_amended (minFreq : Nat) (sortBy : String) :
    analyze_epub none = [] ∧
    chapterFiles (analyze_epub none) minFreq sortBy = [] ∧
    csvFilesWritten (analyze_epub none) minFreq sortBy =
      [("combined_analysis.csv", [["Word", "Total"]])] := by
  refine ⟨rfl, rfl, ?_⟩
  by_cases h : sortBy = "frequency" <;>
    simp [csvFilesWritten, chapterFiles, combinedRows, sortedAllWords,
      allWords, combinedHeader, stableSort, analyze_epub, h]

/-! ### Claim theorems: C1 -/

/-- Claim C1 (counterexample): on the specified container the code's
normalized text is not `o_que é isso o_que é isso` and the exported rows
are not `é,2 / isso,2 / o_que,2`: the `<title>` text `Ch1` leaks into
`get_text()` (producing the extra token `ch`), and the tie-break is
code-point order, which places `é` (U+00E9) after `isso` and `o_que`. -/
theorem c1_counterexample :
    clean_text (String.mk (html_to_text c1Content.data)) ≠
      "o_que é isso o_que é isso" ∧
    sortChapterRows "frequency" (filterFreqs 1 (get_word_frequencies
        (clean_text (String.mk (html_to_text c1Content.data))))) ≠
      [("é", 2), ("isso", 2), ("o_que", 2)] := by decide

/-- Claim C1 (amended): the pipeline produces a ChapterRecord with title
`Ch1`, normalized text `ch o_que é isso o_que é isso`, frequencies
ch:1, o_que:2, é:2, isso:2, and the per-chapter CSV under the frequency
policy with minFrequency 1 lists `isso,2`, `o_que,2`, `é,2`, `ch,1`. -/
theorem c1_amended :
    analyze_epub c1Book =
      [("Ch1", [("ch", 1), ("o_que", 2), ("é", 2), ("isso", 2)])] ∧
    clean_text (String.mk (html_to_text c1Content.data)) =
      "ch o_que é isso o_que é isso" ∧
    fileOnDisk (csvFilesWritten (analyze_epub c1Book) 1 "frequency")
        "Ch1_frequencies.csv" =
      some [["Word", "Frequency"], ["isso", "2"], ["o_que", "2"],
            ["é", "2"], ["ch", "1"]] := by decide

/-! ### Lemmas: the exporter's title-keyed dictionary -/

theorem lookup_dictInsert_self (d : List (String × α)) (k : String) (v : α) :
    List.lookup k (dictInsert d k v) = some v := by
  induction d with
  | nil => simp [dictInsert, List.lookup_cons]
  | cons p rest ih =>
    rcases p with ⟨k0, v0⟩
    by_cases h : k0 = k
    · subst h
      simp [dictInsert, List.lookup_cons]
    · simp only [dictInsert, if_neg h, List.lookup_cons,
        show (k == k0) = false from beq_eq_false_iff_ne.mpr (Ne.symm h)]
      exact ih

theorem lookup_dictInsert_ne (d : List (String × α)) {k' k : String} (v : α)
    (h : k' ≠ k) : List.lookup k' (dictInsert d k v) = List.lookup k' d := by
  induction d with
  | nil =>
    simp only [dictInsert, List.lookup_cons,
      show (k' == k) = false from beq_eq_false_iff_ne.mpr h, List.lookup_nil]
  | cons p rest ih =>
    rcases p with ⟨k0, v0⟩
    by_cases h0 : k0 = k
    · subst h0
      simp [dictInsert, List.lookup_cons,
        show (k' == k0) = false from beq_eq_false_iff_ne.mpr h]
    · simp only [dictInsert, if_neg h0, List.lookup_cons]
      cases hk : k' == k0
      · exact ih
      · rfl

/-- Chapters whose titles avoid `t` do not change what the dict returns
for `t`. -/
theorem lookup_foldl_dictInsert_absent
    (f : String × List (String × Nat) → List (String × Nat))
    (cs : List (String × List (String × Nat)))
    (d : List (String × List (String × Nat))) (t : String)
    (h : ∀ c ∈ cs, c.1 ≠ t) :
    List.lookup t (cs.foldl (fun d ch => dictInsert d ch.1 (f ch)) d) =
      List.lookup t d := by
  induction cs generalizing d with
  | nil => rfl
  | cons c rest ih =>
    have hc : c.1 ≠ t := h c (List.mem_cons_self c rest)
    rw [List.foldl_cons, ih _ (fun x hx => h x (List.mem_cons_of_mem c hx)),
      lookup_dictInsert_ne _ _ (Ne.symm hc)]

/-- With pairwise-distinct titles, the exporter's dict maps each chapter's
title to that chapter's filtered frequencies. -/
theorem lookup_chapterWordCounts
    (chapters : List (String × List (String × Nat))) (minFreq : Nat)
    (hnodup : (chapters.map (fun ch => ch.1)).Nodup)
    (ch : String × List (String × Nat)) (hmem : ch ∈ chapters) :
    List.lookup ch.1 (chapterWordCounts chapters minFreq) =
      some (filterFreqs minFreq ch.2) := by
  unfold chapterWordCounts
  suffices h : ∀ (cs : List (String × List (String × Nat)))
      (d : List (String × List (String × Nat))),
      (cs.map (fun c => c.1)).Nodup → ch ∈ cs →
      List.lookup ch.1
        (cs.foldl (fun d c => dictInsert d c.1 (filterFreqs minFreq c.2)) d) =
        some (filterFreqs minFreq ch.2) from
    h chapters [] hnodup hmem
  intro cs
  induction cs with
  | nil => intro d _ hm; cases hm
  | cons c rest ih =>
    intro d hnd hm
    rw [List.map_cons, List.nodup_cons] at hnd
    rcases List.mem_cons.mp hm with h | h
    · subst h
      rw [List.foldl_cons,
        lookup_foldl_dictInsert_absent _ rest _ ch.1
          (fun x hx hti => hnd.1 (hti ▸ List.mem_map_of_mem (fun c => c.1) hx)),
        lookup_dictInsert_self]
    · exact ih _ hnd.2 h

/-! ### Claim theorems: C4 -/

/-- Claim C4 (counterexample): with two chapters both titled `A` (counts
x:1 and x:2), the combined-table Total for `x` is 4 — both columns read the
later chapter's dict entry — while the sum of the per-chapter filtered
counts is 3. -/
theorem c4_counterexample :
    (combinedRow dupChapters 1 "x").2 = 4 ∧
    perChapterFilteredSum dupChapters 1 "x" = 3 ∧
    (combinedRow dupChapters 1 "x").2 ≠ perChapterFilteredSum dupChapters 1 "x" := by
  decide

/-- Claim C4 (amended): when the chapter titles are pairwise distinct, the
combined-table Total of every word equals the sum of that word's filtered
per-chapter counts; with a duplicated title every column of that title
reads the last same-titled chapter's counts, so the equality can fail. -/
theorem c4_amended (chapters : List (String × List (String × Nat)))
    (minFreq : Nat) (hnodup : (chapters.map (fun ch => ch.1)).Nodup)
    (w : String) :
    (combinedRow chapters minFreq w).2 =
      perChapterFilteredSum chapters minFreq w := by
  unfold combinedRow perChapterFilteredSum
  refine congrArg List.sum (List.map_congr_left ?_)
  intro ch hmem
  simp [lookup_chapterWordCounts chapters minFreq hnodup ch hmem]

theorem c4_amended_witness :
    ((([("A", [("x", 1)]), ("B", [("x", 2)])] :
        List (String × List (String × Nat))).map (fun ch => ch.1)).Nodup) ∧
    (combinedRow [("A", [("x", 1)]), ("B", [("x", 2)])] 1 "x").2 =
      perChapterFilteredSum [("A", [("x", 1)]), ("B", [("x", 2)])] 1 "x" :=
  ⟨by decide, c4_amended [("A", [("x", 1)]), ("B", [("x", 2)])] 1 (by decide) "x"⟩

/-! ### Claim theorems: C7 -/

/-- Claim C7 (counterexample): a content part with a present-but-empty
`<title>` element and first heading `Intro` derives the empty title, not
`Intro`: a found title Tag is used regardless of emptiness. -/
theorem c7_counterexample :
    (analyze_epub c7Book).map (fun ch => ch.1) = [""] ∧
    ("" : String) ≠ "Intro" := by decide

/-- Claim C7 (amended): the derived chapter title is the document's first
`title` element's text whenever a `title` element is present — even when
that text is empty; otherwise the first `h1`/`h2` element's text; otherwise
the content part's internal file name. -/
theorem c7_amended (toks : List HtmlTok) (nm : String) :
    (∀ t, findText ["title"] toks = some t →
      chapterTitle toks nm = String.mk t) ∧
    (findText ["title"] toks = none →
      ∀ t, findText ["h1", "h2"] toks = some t →
        chapterTitle toks nm = String.mk t) ∧
    (findText ["title"] toks = none → findText ["h1", "h2"] toks = none →
      chapterTitle toks nm = nm) := by
  refine ⟨?_, ?_, ?_⟩
  · intro t h
    simp [chapterTitle, h]
  · intro h t h2
    simp [chapterTitle, h, h2]
  · intro h h2
    simp [chapterTitle, h, h2]

theorem c7_amended_witness :
    findText ["title"] (tokenizeHtml c1Content.data) = some "Ch1".data ∧
    chapterTitle (tokenizeHtml c1Content.data) "ch1.xhtml" =
      String.mk "Ch1".data :=
  ⟨by decide,
   (c7_amended (tokenizeHtml c1Content.data) "ch1.xhtml").1 "Ch1".data (by decide)⟩

/-! ### Lemmas: last-write-wins file system -/

theorem lookup_append_of_no_key {α} (l1 l2 : List (String × α)) (k : String)
    (h : ∀ y ∈ l1, y.1 ≠ k) :
    List.lookup k (l1 ++ l2) = List.lookup k l2 := by
  induction l1 with
  | nil => rfl
  | cons y rest ih =>
    rcases y with ⟨n, c⟩
    rw [List.cons_append, List.lookup_cons,
      show (k == n) = false from
        beq_eq_false_iff_ne.mpr (Ne.symm (h (n, c) (List.mem_cons_self _ _))),
      ih (fun z hz => h z (List.mem_cons_of_mem _ hz))]

/-- After writing `w1`, then `x`, then writes `w2` none of which touch
`x`'s path, the disk holds `x`'s content at `x`'s path. -/
theorem fileOnDisk_append_last {α} (w1 w2 : List (String × α)) (x : String × α)
    (h : ∀ y ∈ w2, y.1 ≠ x.1) :
    fileOnDisk (w1 ++ x :: w2) x.1 = some x.2 := by
  unfold fileOnDisk
  rw [List.reverse_append, List.reverse_cons, List.append_assoc,
    lookup_append_of_no_key _ _ _ (fun y hy => h y (List.mem_reverse.mp hy)),
    List.singleton_append, List.lookup_cons]
  simp

theorem string_append_right_ne {a b c : String} (h : a ≠ b) : a ++ c ≠ b ++ c := by
  intro hab
  apply h
  have : (a ++ c).data = (b ++ c).data := by rw [hab]
  rw [String.data_append, String.data_append] at this
  exact congrArg String.mk (List.append_cancel_right this)

/-! ### Claim theorems: C10 -/

/-- Claim C10 (confirmed): the exporter keys per-chapter data by chapter
title. For chapters `pre ++ chI :: mid ++ chJ :: post` where `chI` and
`chJ` share a title and no chapter after `chJ` reuses that title or its
sanitized file path: the per-chapter CSV path derived from the shared title
holds `chJ`'s rows (the later write overwrote the earlier), the dict
`chapter_word_counts` maps the shared title to `chJ`'s filtered counts, and
in every combined row `chI`'s column carries `chJ`'s count — the earlier
chapter's filtered counts are absent. -/
theorem c10_title_collision
    (pre mid post : List (String × List (String × Nat)))
    (chI chJ : String × List (String × Nat)) (minFreq : Nat) (sortBy : String)
    (htitle : chI.1 = chJ.1)
    (hpost : ∀ c ∈ post, c.1 ≠ chJ.1 ∧ sanitizeTitle c.1 ≠ sanitizeTitle chJ.1) :
    fileOnDisk
        (chapterFiles (pre ++ chI :: (mid ++ chJ :: post)) minFreq sortBy)
        (sanitizeTitle chI.1 ++ "_frequencies.csv")
      = some (sortChapterRows sortBy (filterFreqs minFreq chJ.2)) ∧
    List.lookup chI.1
        (chapterWordCounts (pre ++ chI :: (mid ++ chJ :: post)) minFreq)
      = some (filterFreqs minFreq chJ.2) ∧
    ∀ w : String,
      (combinedRow (pre ++ chI :: (mid ++ chJ :: post)) minFreq w).1[pre.length]?
        = some ((List.lookup w (filterFreqs minFreq chJ.2)).getD 0) := by
  have hlookup :
      List.lookup chI.1
        (chapterWordCounts (pre ++ chI :: (mid ++ chJ :: post)) minFreq)
        = some (filterFreqs minFreq chJ.2) := by
    unfold chapterWordCounts
    rw [htitle, List.foldl_append, List.foldl_cons, List.foldl_append,
      List.foldl_cons,
      lookup_foldl_dictInsert_absent _ post _ chJ.1 (fun c hc => (hpost c hc).1),
      lookup_dictInsert_self]
  refine ⟨?_, hlookup, ?_⟩
  · unfold chapterFiles
    rw [htitle, List.map_append, List.map_cons, List.map_append, List.map_cons]
    have := fileOnDisk_append_last
      ((pre.map (fun ch =>
          (sanitizeTitle ch.1 ++ "_frequencies.csv",
           sortChapterRows sortBy (filterFreqs minFreq ch.2)))) ++
        (sanitizeTitle chI.1 ++ "_frequencies.csv",
         sortChapterRows sortBy (filterFreqs minFreq chI.2)) ::
        mid.map (fun ch =>
          (sanitizeTitle ch.1 ++ "_frequencies.csv",
           sortChapterRows sortBy (filterFreqs minFreq ch.2))))
      (post.map (fun ch =>
          (sanitizeTitle ch.1 ++ "_frequencies.csv",
           sortChapterRows sortBy (filterFreqs minFreq ch.2))))
      ((sanitizeTitle chJ.1 ++ "_frequencies.csv",
         sortChapterRows sortBy (filterFreqs minFreq chJ.2)))
      (by
        intro y hy
        rcases List.mem_map.mp hy with ⟨c, hc, rfl⟩
        exact string_append_right_ne (hpost c hc).2)
    simpa using this
  · intro w
    unfold combinedRow
    rw [List.getElem?_map,
      show (pre ++ chI :: (mid ++ chJ :: post))[pre.length]? = some chI from by
        rw [List.getElem?_append_right (Nat.le_refl pre.length)]
        simp]
    simp [hlookup]

theorem c10_title_collision_witness :
    (("A", [("x", 1)]) : String × List (String × Nat)).1 =
      (("A", [("x", 2), ("y", 1)]) : String × List (String × Nat)).1 ∧
    fileOnDisk (chapterFiles dupChapters 1 "frequency") (sanitizeTitle "A" ++ "_frequencies.csv")
      = some (sortChapterRows "frequency" (filterFreqs 1 [("x", 2), ("y", 1)])) ∧
    List.lookup "A" (chapterWordCounts dupChapters 1)
      = some (filterFreqs 1 [("x", 2), ("y", 1)]) :=
  have h := c10_title_collision [] [] [] ("A", [("x", 1)])
    ("A", [("x", 2), ("y", 1)]) 1 "frequency" rfl (by simp)
  ⟨rfl, h.1, h.2.1⟩

/-! ### Lemmas: the stable sort -/

theorem insertStable_perm (le : α → α → Bool) (a : α) (l : List α) :
    (insertStable le a l).Perm (a :: l) := by
  induction l with
  | nil => exact List.Perm.refl _
  | cons b bs ih =>
    unfold insertStable
    by_cases h : le b a = true
    · rw [if_pos h]
      exact (ih.cons b).trans (List.Perm.swap a b bs)
    · rw [if_neg h]

theorem stableSort_aux_perm (le : α → α → Bool) (l acc : List α) :
    (l.foldl (fun acc a => insertStable le a acc) acc).Perm (acc ++ l) := by
  induction l generalizing acc with
  | nil => simp
  | cons a as ih =>
    rw [List.foldl_cons]
    refine (ih (insertStable le a acc)).trans ?_
    refine ((insertStable_perm le a acc).append_right as).trans ?_
    exact List.perm_middle.symm

theorem stableSort_perm (le : α → α → Bool) (l : List α) :
    (stableSort le l).Perm l := by
  simpa using stableSort_aux_perm le l []

theorem mem_stableSort (le : α → α → Bool) (l : List α) (x : α) :
    x ∈ stableSort le l ↔ x ∈ l :=
  (stableSort_perm le l).mem_iff

theorem mem_insertStable (le : α → α → Bool) (a : α) (l : List α) (x : α) :
    x ∈ insertStable le a l ↔ x = a ∨ x ∈ l := by
  rw [(insertStable_perm le a l).mem_iff, List.mem_cons]

theorem pairwise_insertStable (le : α → α → Bool)
    (htot : ∀ a b, le a b = true ∨ le b a = true)
    (htrans : ∀ a b c, le a b = true → le b c = true → le a c = true)
    (a : α) (l : List α) (h : l.Pairwise (fun x y => le x y = true)) :
    (insertStable le a l).Pairwise (fun x y => le x y = true) := by
  induction l with
  | nil => simp [insertStable]
  | cons b bs ih =>
    rw [List.pairwise_cons] at h
    unfold insertStable
    by_cases hba : le b a = true
    · rw [if_pos hba]
      refine List.Pairwise.cons ?_ (ih h.2)
      intro x hx
      rcases (mem_insertStable le a bs x).mp hx with rfl | hx'
      · exact hba
      · exact h.1 x hx'
    · rw [if_neg hba]
      have hab : le a b = true := (htot a b).resolve_right hba
      refine List.Pairwise.cons ?_ (List.pairwise_cons.mpr h)
      intro x hx
      rcases List.mem_cons.mp hx with rfl | hx'
      · exact hab
      · exact htrans a b x hab (h.1 x hx')

theorem pairwise_stableSort (le : α → α → Bool)
    (htot : ∀ a b, le a b = true ∨ le b a = true)
    (htrans : ∀ a b c, le a b = true → le b c = true → le a c = true)
    (l : List α) :
    (stableSort le l).Pairwise (fun x y => le x y = true) := by
  suffices h : ∀ acc : List α, acc.Pairwise (fun x y => le x y = true) →
      (l.foldl (fun acc a => insertStable le a acc) acc).Pairwise
        (fun x y => le x y = true) from h [] List.Pairwise.nil
  induction l with
  | nil => intro acc hacc; exact hacc
  | cons a as ih =>
    intro acc hacc
    rw [List.foldl_cons]
    exact ih _ (pairwise_insertStable le htot htrans a acc hacc)

/-! ### Lemmas: the comparison keys -/

theorem lexLe_total : ∀ s t : List Char, lexLe s t = true ∨ lexLe t s = true
  | [], _ => Or.inl rfl
  | _ :: _, [] => Or.inr rfl
  | a :: as, b :: bs => by
    by_cases hab : a = b
    · subst hab
      simpa [lexLe] using lexLe_total as bs
    · rcases lt_trichotomy a b with h | h | h
      · left; simp [lexLe, hab, h]
      · exact absurd h hab
      · right; simp [lexLe, Ne.symm hab, h]

theorem lexLe_trans : ∀ s t u : List Char,
    lexLe s t = true → lexLe t u = true → lexLe s u = true
  | [], _, _, _, _ => rfl
  | _ :: _, [], _, h1, _ => by simp [lexLe] at h1
  | _ :: _, _ :: _, [], _, h2 => by simp [lexLe] at h2
  | a :: as, b :: bs, c :: cs, h1, h2 => by
    simp only [lexLe] at h1 h2 ⊢
    by_cases hab : a = b
    · subst hab
      rw [if_pos rfl] at h1
      by_cases hac : a = c
      · subst hac
        rw [if_pos rfl] at h2 ⊢
        exact lexLe_trans as bs cs h1 h2
      · rw [if_neg hac] at h2 ⊢
        exact h2
    · rw [if_neg hab] at h1
      have hab' : a < b := of_decide_eq_true h1
      by_cases hbc : b = c
      · subst hbc
        rw [if_neg (ne_of_lt hab')]
        exact decide_eq_true hab'
      · rw [if_neg hbc] at h2
        have hbc' : b < c := of_decide_eq_true h2
        have hac : a < c := lt_trans hab' hbc'
        rw [if_neg (ne_of_lt hac)]
        exact decide_eq_true hac

theorem strLe_total (a b : String) : strLe a b = true ∨ strLe b a = true :=
  lexLe_total a.data b.data

theorem strLe_trans (a b c : String) :
    strLe a b = true → strLe b c = true → strLe a c = true :=
  lexLe_trans a.data b.data c.data

/-- Totality of the `(-count, word)` comparison, generic in the count key
`f` and word key `g`. -/
theorem keyedLe_total (f : α → Nat) (g : α → String) (x y : α) :
    (decide (f y < f x) || (decide (f x = f y) && strLe (g x) (g y))) = true ∨
    (decide (f x < f y) || (decide (f y = f x) && strLe (g y) (g x))) = true := by
  rcases Nat.lt_trichotomy (f x) (f y) with h | h | h
  · right; simp [h]
  · rcases strLe_total (g x) (g y) with hs | hs
    · left; simp [h, hs]
    · right; simp [h.symm, hs]
  · left; simp [h]

/-- Transitivity of the `(-count, word)` comparison. -/
theorem keyedLe_trans (f : α → Nat) (g : α → String) (x y z : α)
    (h1 : (decide (f y < f x) || (decide (f x = f y) && strLe (g x) (g y))) = true)
    (h2 : (decide (f z < f y) || (decide (f y = f z) && strLe (g y) (g z))) = true) :
    (decide (f z < f x) || (decide (f x = f z) && strLe (g x) (g z))) = true := by
  simp only [Bool.or_eq_true, Bool.and_eq_true, decide_eq_true_eq] at h1 h2 ⊢
  rcases h1 with h1 | ⟨h1e, h1s⟩ <;> rcases h2 with h2 | ⟨h2e, h2s⟩
  · exact Or.inl (by omega)
  · exact Or.inl (by omega)
  · exact Or.inl (by omega)
  · exact Or.inr ⟨h1e.trans h2e, strLe_trans _ _ _ h1s h2s⟩

theorem freqLe_iff (x y : String × Nat) :
    freqLe x y = true ↔ y.2 < x.2 ∨ (x.2 = y.2 ∧ strLe x.1 y.1 = true) := by
  simp [freqLe, Bool.or_eq_true, Bool.and_eq_true, decide_eq_true_eq]

/-! ### Claim theorems: C6 -/

/-- Claim C6 (confirmed): under the frequency policy the exported rows are
ordered by descending count with ties broken by ascending code-point
lexicographic word order; under the alphabetical policy by ascending word
order alone; the combined-table word order behaves likewise with the
summed count as its primary key. In particular any two entries with equal
count appear in ascending lexicographic order under the frequency policy. -/
theorem c6_sort_contract (freqs : List (String × Nat)) (minFreq : Nat)
    (chapters : List (String × List (String × Nat))) :
    (sortChapterRows "frequency" (filterFreqs minFreq freqs)).Pairwise
      (fun x y => y.2 < x.2 ∨ (x.2 = y.2 ∧ strLe x.1 y.1 = true)) ∧
    (sortChapterRows "alphabetical" (filterFreqs minFreq freqs)).Pairwise
      (fun x y => strLe x.1 y.1 = true) ∧
    (sortedAllWords chapters minFreq "frequency").Pairwise
      (fun x y =>
        totalFrequency (chapterWordCounts chapters minFreq) y <
          totalFrequency (chapterWordCounts chapters minFreq) x ∨
        (totalFrequency (chapterWordCounts chapters minFreq) x =
            totalFrequency (chapterWordCounts chapters minFreq) y ∧
          strLe x y = true)) ∧
    (sortedAllWords chapters minFreq "alphabetical").Pairwise
      (fun x y => strLe x y = true) := by
  refine ⟨?_, ?_, ?_, ?_⟩
  · have h := pairwise_stableSort freqLe
      (fun a b => keyedLe_total (fun p : String × Nat => p.2) (fun p => p.1) a b)
      (fun a b c => keyedLe_trans (fun p : String × Nat => p.2) (fun p => p.1) a b c)
      (filterFreqs minFreq freqs)
    rw [show sortChapterRows "frequency" (filterFreqs minFreq freqs) =
        stableSort freqLe (filterFreqs minFreq freqs) from by
      simp [sortChapterRows]]
    exact h.imp (fun hxy => (freqLe_iff _ _).mp hxy)
  · rw [show sortChapterRows "alphabetical" (filterFreqs minFreq freqs) =
        stableSort (fun x y => strLe x.1 y.1) (filterFreqs minFreq freqs) from by
      simp [sortChapterRows]]
    exact pairwise_stableSort _
      (fun a b => strLe_total a.1 b.1)
      (fun a b c => strLe_trans a.1 b.1 c.1)
      (filterFreqs minFreq freqs)
  · have h := pairwise_stableSort
      (fun x y =>
        decide (totalFrequency (chapterWordCounts chapters minFreq) y <
            totalFrequency (chapterWordCounts chapters minFreq) x) ||
        (decide (totalFrequency (chapterWordCounts chapters minFreq) x =
            totalFrequency (chapterWordCounts chapters minFreq) y) &&
          strLe x y))
      (fun a b =>
        keyedLe_total (totalFrequency (chapterWordCounts chapters minFreq))
          (fun w => w) a b)
      (fun a b c =>
        keyedLe_trans (totalFrequency (chapterWordCounts chapters minFreq))
          (fun w => w) a b c)
      (allWords chapters minFreq)
    rw [show sortedAllWords chapters minFreq "frequency" =
        stableSort
          (fun x y =>
            decide (totalFrequency (chapterWordCounts chapters minFreq) y <
                totalFrequency (chapterWordCounts chapters minFreq) x) ||
            (decide (totalFrequency (chapterWordCounts chapters minFreq) x =
                totalFrequency (chapterWordCounts chapters minFreq) y) &&
              strLe x y))
          (allWords chapters minFreq) from by
      simp [sortedAllWords]]
    refine h.imp (fun hxy => ?_)
    simpa [Bool.or_eq_true, Bool.and_eq_true, decide_eq_true_eq] using hxy
  · rw [show sortedAllWords chapters minFreq "alphabetical" =
        stableSort strLe (allWords chapters minFreq) from by
      simp [sortedAllWords]]
    exact pairwise_stableSort _ strLe_total strLe_trans (allWords chapters minFreq)

/-! ### Lemmas: shape of normalized text (for idempotence) -/

theorem accent_pyLower_fix :
    ∀ c ∈ "áéíóúâêîôûãõàèìòùäëïöüçñ".data, pyLower c = c := by decide

/-- Every character kept by the strip step is a fixed point of the
lowercasing step. -/
theorem pyLower_fix_of_kept (c : Char) (h : keptChar c = true) :
    pyLower c = c := by
  simp only [keptChar, Bool.or_eq_true, decide_eq_true_eq] at h
  rcases h with ((⟨h1, h2⟩ | h) | h) | h
  · have hA : ¬('A' ≤ c ∧ c ≤ 'Z') := by
      rintro ⟨-, h4⟩
      exact absurd h4 (not_le_of_lt (lt_of_lt_of_le (by decide : 'Z' < 'a') h1))
    have hB : ¬('À' ≤ c ∧ c ≤ 'Þ' ∧ c ≠ '×') := by
      rintro ⟨h3, -, -⟩
      exact absurd h3 (not_le_of_lt (lt_of_le_of_lt h2 (by decide : 'z' < 'À')))
    simp [pyLower, hA, hB]
  · have hm : c ∈ "áéíóúâêîôûãõàèìòùäëïöüçñ".data := by
      simpa [List.contains] using h
    exact accent_pyLower_fix c hm
  · simp only [pyWhitespace, decide_eq_true_eq] at h
    rcases h with rfl|rfl|rfl|rfl|rfl|rfl|rfl|rfl|rfl|rfl|rfl|rfl|rfl|hr|rfl|rfl|rfl|rfl|rfl
    all_goals try decide
    obtain ⟨hlo, -⟩ := hr
    have hA : ¬('A' ≤ c ∧ c ≤ 'Z') := by
      rintro ⟨-, h4⟩
      exact absurd h4
        (not_le_of_lt (lt_of_lt_of_le (by decide : 'Z' < ' ') hlo))
    have hB : ¬('À' ≤ c ∧ c ≤ 'Þ' ∧ c ≠ '×') := by
      rintro ⟨-, h4, -⟩
      exact absurd h4
        (not_le_of_lt (lt_of_lt_of_le (by decide : 'Þ' < ' ') hlo))
    simp [pyLower, hA, hB]
  · subst h; decide

theorem mem_collapseAux (l : List Char) : ∀ (b : Bool) (c : Char),
    c ∈ collapseAux b l → (c ∈ l ∧ pyWhitespace c = false) ∨ c = ' ' := by
  induction l with
  | nil => intro b c h; simp [collapseAux] at h
  | cons x xs ih =>
    intro b c h
    simp only [collapseAux] at h
    by_cases hx : pyWhitespace x = true
    · rw [if_pos hx] at h
      cases b with
      | true =>
        rcases ih true c h with ⟨h1, h2⟩ | h1
        · exact Or.inl ⟨List.mem_cons_of_mem x h1, h2⟩
        · exact Or.inr h1
      | false =>
        rcases List.mem_cons.mp h with rfl | h'
        · exact Or.inr rfl
        · rcases ih true c h' with ⟨h1, h2⟩ | h1
          · exact Or.inl ⟨List.mem_cons_of_mem x h1, h2⟩
          · exact Or.inr h1
    · rw [if_neg hx] at h
      rcases List.mem_cons.mp h with rfl | h'
      · exact Or.inl ⟨List.mem_cons_self _ _, by simpa using hx⟩
      · rcases ih false c h' with ⟨h1, h2⟩ | h1
        · exact Or.inl ⟨List.mem_cons_of_mem x h1, h2⟩
        · exact Or.inr h1

theorem collapseAux_chain (l : List Char) :
    (collapseAux false l).Chain' noTwoWs ∧
    (collapseAux true l).Chain' noTwoWs ∧
    (∀ c ∈ (collapseAux true l).head?, pyWhitespace c = false) := by
  induction l with
  | nil =>
    refine ⟨List.chain'_nil, List.chain'_nil, ?_⟩
    intro c hc
    simp [collapseAux] at hc
  | cons x xs ih =>
    obtain ⟨ihf, iht, ihh⟩ := ih
    by_cases hx : pyWhitespace x = true
    · simp only [collapseAux, if_pos hx, if_neg (by decide : ¬(false = true)),
        if_pos (rfl : (true : Bool) = true)]
      refine ⟨?_, iht, ihh⟩
      exact List.chain'_cons'.mpr ⟨fun y hy _ => ihh y hy, iht⟩
    · simp only [collapseAux, if_neg hx]
      have hchain : (x :: collapseAux false xs).Chain' noTwoWs :=
        List.chain'_cons'.mpr
          ⟨fun y _ hwx => absurd hwx (by simpa using hx), ihf⟩
      refine ⟨hchain, hchain, ?_⟩
      intro c hc
      have hxc : x = c := by simpa using hc
      subst hxc
      simpa using hx

theorem collapseAux_id (l : List Char)
    (hws : ∀ c ∈ l, pyWhitespace c = true → c = ' ')
    (hchain : l.Chain' noTwoWs) :
    collapseAux false l = l ∧
    ((∀ c ∈ l.head?, pyWhitespace c = false) → collapseAux true l = l) := by
  induction l with
  | nil => exact ⟨rfl, fun _ => rfl⟩
  | cons x xs ih =>
    obtain ⟨hhead, htail⟩ := List.chain'_cons'.mp hchain
    obtain ⟨ihf, iht⟩ :=
      ih (fun c hc => hws c (List.mem_cons_of_mem x hc)) htail
    by_cases hx : pyWhitespace x = true
    · have hxsp : x = ' ' := hws x (List.mem_cons_self x xs) hx
      have hxs_head : ∀ c ∈ xs.head?, pyWhitespace c = false :=
        fun c hc => hhead c hc hx
      constructor
      · simp only [collapseAux, if_pos hx, if_neg (by decide : ¬(false = true))]
        rw [iht hxs_head, hxsp]
      · intro hh
        exact absurd hx (by simpa using hh x (by simp))
    · constructor
      · simp only [collapseAux, if_neg hx, ihf]
      · intro _
        simp only [collapseAux, if_neg hx, ihf]

theorem head_dw_not (p : Char → Bool) (l : List Char) :
    ∀ c ∈ (l.dropWhile p).head?, p c = false := by
  intro c hc
  have h := List.head?_dropWhile_not p l
  cases hh : (l.dropWhile p).head? with
  | none => rw [hh] at hc; simp at hc
  | some a =>
    rw [hh] at hc h
    obtain rfl : a = c := by simpa using hc
    simpa using h

theorem dropWhile_eq_self_of_head (l : List Char) (p : Char → Bool)
    (h : ∀ c ∈ l.head?, p c = false) : l.dropWhile p = l := by
  cases l with
  | nil => rfl
  | cons x xs =>
    have hx : p x = false := h x (by simp)
    rw [List.dropWhile_cons_of_neg (by simp [hx])]

theorem pyStrip_eq_self (l : List Char)
    (hh : ∀ c ∈ l.head?, pyWhitespace c = false)
    (hl : ∀ c ∈ l.getLast?, pyWhitespace c = false) :
    pyStrip l = l := by
  unfold pyStrip
  rw [dropWhile_eq_self_of_head l _ hh,
    dropWhile_eq_self_of_head l.reverse _ (by simpa using hl),
    List.reverse_reverse]

theorem getLast?_dropWhile (p : Char → Bool) (l : List Char)
    (hne : l.dropWhile p ≠ []) :
    (l.dropWhile p).getLast? = l.getLast? := by
  have hsuf : List.IsSuffix (l.dropWhile p) l := List.dropWhile_suffix p
  obtain ⟨t, ht⟩ := hsuf
  conv_rhs => rw [← ht]
  rw [List.getLast?_append]
  cases hg : (l.dropWhile p).getLast? with
  | none => exact absurd (List.getLast?_eq_none_iff.mp hg) hne
  | some a => simp

theorem mem_pyStrip (l : List Char) (c : Char) (h : c ∈ pyStrip l) : c ∈ l := by
  unfold pyStrip at h
  rw [List.mem_reverse] at h
  have h1 := (List.dropWhile_sublist pyWhitespace).subset h
  rw [List.mem_reverse] at h1
  exact (List.dropWhile_sublist pyWhitespace).subset h1

theorem pyStrip_head_not (l : List Char) :
    ∀ c ∈ (pyStrip l).head?, pyWhitespace c = false := by
  intro c hc
  unfold pyStrip at hc
  rw [List.head?_reverse] at hc
  by_cases hne :
      (l.dropWhile pyWhitespace).reverse.dropWhile pyWhitespace = []
  · rw [hne] at hc; simp at hc
  · rw [getLast?_dropWhile _ _ hne, List.getLast?_reverse] at hc
    exact head_dw_not pyWhitespace l c hc

theorem pyStrip_last_not (l : List Char) :
    ∀ c ∈ (pyStrip l).getLast?, pyWhitespace c = false := by
  intro c hc
  unfold pyStrip at hc
  rw [List.getLast?_reverse] at hc
  exact head_dw_not pyWhitespace _ c hc

theorem noTwoWs_symm {a b : Char} (h : noTwoWs a b) : noTwoWs b a := by
  intro hb
  by_cases ha : pyWhitespace a = true
  · exact absurd hb (by simp [h ha])
  · simpa using ha

theorem chain'_dropWhile {R : Char → Char → Prop} (p : Char → Bool)
    (l : List Char) (h : l.Chain' R) : (l.dropWhile p).Chain' R := by
  induction l with
  | nil => simp
  | cons x xs ih =>
    by_cases hx : p x = true
    · rw [List.dropWhile_cons_of_pos hx]
      exact ih h.tail
    · rw [List.dropWhile_cons_of_neg (by simp [hx])]
      exact h

theorem chain'_pyStrip (l : List Char) (h : l.Chain' noTwoWs) :
    (pyStrip l).Chain' noTwoWs := by
  unfold pyStrip
  have h1 := chain'_dropWhile pyWhitespace l h
  have h2 : (l.dropWhile pyWhitespace).reverse.Chain' noTwoWs :=
    (List.chain'_reverse.mpr (h1.imp fun _ _ hab => noTwoWs_symm hab))
  have h3 := chain'_dropWhile pyWhitespace _ h2
  exact List.chain'_reverse.mpr (h3.imp fun _ _ hab => noTwoWs_symm hab)

/-! ### Claim theorems: C8 -/

/-- Claim C8 (confirmed): re-applying normalization steps 2-5 (lowercasing,
character stripping, whitespace collapsing, trimming) to the output of
`clean_text` returns that output unchanged: the output consists of kept,
lowercase-fixed characters with single interior spaces and no leading or
trailing whitespace, and each of the four steps fixes such text. -/
theorem cleanShape_fix (z : List Char) :
    pyStrip (collapseWs (stripSpecials
      ((pyStrip (collapseWs (stripSpecials z))).map pyLower)))
      = pyStrip (collapseWs (stripSpecials z)) := by
  have hkept : ∀ c ∈ pyStrip (collapseWs (stripSpecials z)),
      keptChar c = true := by
    intro c hc
    have hc1 := mem_pyStrip _ _ hc
    rcases mem_collapseAux _ false c hc1 with ⟨h1, -⟩ | rfl
    · rcases List.mem_map.mp h1 with ⟨d, -, rfl⟩
      by_cases hd : keptChar d = true
      · rw [if_pos hd]
        exact hd
      · simp only [if_neg hd]
        decide
    · decide
  have hws : ∀ c ∈ pyStrip (collapseWs (stripSpecials z)),
      pyWhitespace c = true → c = ' ' := by
    intro c hc hw
    have hc1 := mem_pyStrip _ _ hc
    rcases mem_collapseAux _ false c hc1 with ⟨-, h2⟩ | rfl
    · rw [h2] at hw; cases hw
    · rfl
  have e1 : (pyStrip (collapseWs (stripSpecials z))).map pyLower
      = pyStrip (collapseWs (stripSpecials z)) := by
    have h1 : List.map pyLower (pyStrip (collapseWs (stripSpecials z))) =
        List.map id (pyStrip (collapseWs (stripSpecials z))) :=
      List.map_congr_left (fun c hc => pyLower_fix_of_kept c (hkept c hc))
    rw [h1, List.map_id]
  have e2 : stripSpecials (pyStrip (collapseWs (stripSpecials z)))
      = pyStrip (collapseWs (stripSpecials z)) := by
    have h2 : List.map (fun c => if keptChar c then c else ' ')
          (pyStrip (collapseWs (stripSpecials z))) =
        List.map id (pyStrip (collapseWs (stripSpecials z))) :=
      List.map_congr_left (fun c hc => by simp [hkept c hc])
    exact h2.trans (List.map_id _)
  have e3 : collapseWs (pyStrip (collapseWs (stripSpecials z)))
      = pyStrip (collapseWs (stripSpecials z)) :=
    (collapseAux_id _ hws
      (chain'_pyStrip _ (collapseAux_chain (stripSpecials z)).1)).1
  have e4 : pyStrip (pyStrip (collapseWs (stripSpecials z)))
      = pyStrip (collapseWs (stripSpecials z)) :=
    pyStrip_eq_self _ (pyStrip_head_not _) (pyStrip_last_not _)
  rw [e1, e2, e3, e4]

/-- Claim C8 (confirmed): re-applying normalization steps 2-5 (lowercasing,
character stripping, whitespace collapsing, trimming) to the output of
`clean_text` returns that output unchanged: the output consists of kept,
lowercase-fixed characters with single interior spaces and no leading or
trailing whitespace, and each of the four steps fixes such text. -/
theorem c8_steps_idempotent (s : String) :
    steps2to5 (clean_text s) = clean_text s := by
  have data_mk : ∀ l : List Char, (String.mk l).data = l := fun _ => rfl
  have key : pyStrip (collapseWs (stripSpecials
      ((cleanChars s.data).map pyLower))) = cleanChars s.data := by
    unfold cleanChars
    exact cleanShape_fix _
  unfold steps2to5 clean_text
  rw [data_mk]
  exact congrArg String.mk key

/-! ### Lemmas: substring occurrences and the replace scan -/

theorem startsWith_iff : ∀ pat l : List Char,
    startsWithL pat l = true ↔ ∃ v, l = pat ++ v
  | [], l => by simp [startsWithL]
  | a :: as, [] => by
    simp only [startsWithL]
    constructor
    · intro h; cases h
    · rintro ⟨v, hv⟩; cases hv
  | a :: as, b :: bs => by
    simp only [startsWithL]
    by_cases hab : a = b
    · subst hab
      rw [if_pos rfl, startsWith_iff as bs]
      constructor
      · rintro ⟨v, rfl⟩; exact ⟨v, rfl⟩
      · rintro ⟨v, hv⟩
        rw [List.cons_append] at hv
        exact ⟨v, (List.cons.injEq _ _ _ _ ▸ hv).2⟩
    · rw [if_neg hab]
      constructor
      · intro h; cases h
      · rintro ⟨v, hv⟩
        rw [List.cons_append] at hv
        exact absurd (List.cons.injEq _ _ _ _ ▸ hv).1.symm hab

theorem occursIn_iff (pat l : List Char) :
    OccursIn pat l ↔
      ∃ i, i < l.length + 1 ∧ startsWithL pat (l.drop i) = true := by
  constructor
  · rintro ⟨u, v, rfl⟩
    refine ⟨u.length, ?_, ?_⟩
    · simp
      omega
    · rw [List.append_assoc, List.drop_left]
      exact (startsWith_iff pat _).mpr ⟨v, rfl⟩
  · rintro ⟨i, -, hs⟩
    obtain ⟨v, hv⟩ := (startsWith_iff pat _).mp hs
    exact ⟨l.take i, v, by rw [List.append_assoc, ← hv, List.take_append_drop]⟩

theorem occCount_eq_zero_iff (pat l : List Char) :
    occCount pat l = 0 ↔ ¬ OccursIn pat l := by
  unfold occCount
  rw [List.length_eq_zero, List.filter_eq_nil_iff, occursIn_iff]
  constructor
  · intro h ⟨i, hi, hs⟩
    exact absurd hs (by simpa using h i (List.mem_range.mpr hi))
  · intro h i hi hs
    exact h ⟨i, List.mem_range.mp hi, by simpa using hs⟩

theorem two_le_length_of_two_mem {l : List Nat} {a b : Nat}
    (ha : a ∈ l) (hb : b ∈ l) (hab : a ≠ b) : 2 ≤ l.length := by
  obtain ⟨s, t, rfl⟩ := List.append_of_mem ha
  rcases List.mem_append.mp hb with h | h
  · have := List.length_pos_of_mem h
    simp only [List.length_append, List.length_cons]
    omega
  · rcases List.mem_cons.mp h with rfl | h
    · exact absurd rfl hab
    · have := List.length_pos_of_mem h
      simp only [List.length_append, List.length_cons]
      omega

theorem unique_of_occCount_one (pat A B : List Char)
    (h : occCount pat (A ++ pat ++ B) = 1) :
    ∀ u v, A ++ pat ++ B = u ++ pat ++ v → u = A := by
  intro u v huv
  have hlen : u.length + pat.length + v.length = A.length + pat.length + B.length := by
    have := congrArg List.length huv
    simp only [List.length_append] at this
    omega
  by_cases heq : u.length = A.length
  · have huv2 : A ++ (pat ++ B) = u ++ (pat ++ v) := by
      rw [← List.append_assoc, ← List.append_assoc]
      exact huv
    exact ((List.append_inj huv2 heq.symm).1).symm
  · exfalso
    have hmatch : ∀ w₁ w₂ : List Char, A ++ pat ++ B = w₁ ++ pat ++ w₂ →
        w₁.length ∈ (List.range ((A ++ pat ++ B).length + 1)).filter
          (fun i => startsWithL pat ((A ++ pat ++ B).drop i)) := by
      intro w₁ w₂ hw
      rw [List.mem_filter, List.mem_range]
      constructor
      · have := congrArg List.length hw
        simp only [List.length_append] at this ⊢
        omega
      · rw [hw, List.append_assoc, List.drop_left]
        exact (startsWith_iff pat _).mpr ⟨w₂, rfl⟩
    have h1 := hmatch u v huv
    have h2 := hmatch A B rfl
    have := two_le_length_of_two_mem h1 h2 heq
    unfold occCount at h
    omega

theorem replaceFuel_no_occ (pat rep : List Char) :
    ∀ (fuel : Nat) (l : List Char), l.length ≤ fuel → ¬ OccursIn pat l →
      replaceFuel pat rep fuel l = l := by
  intro fuel
  induction fuel with
  | zero =>
    intro l hl _
    rw [List.length_eq_zero.mp (Nat.le_zero.mp hl)]
    rfl
  | succ f ih =>
    intro l hl hocc
    cases l with
    | nil => rfl
    | cons c cs =>
      have hs : startsWithL pat (c :: cs) = false := by
        cases hse : startsWithL pat (c :: cs)
        · rfl
        · obtain ⟨v, hv⟩ := (startsWith_iff pat _).mp hse
          exact absurd ⟨[], v, by simpa using hv⟩ hocc
      have hcs : ¬ OccursIn pat cs := by
        rintro ⟨u, v, hv⟩
        exact hocc ⟨c :: u, v, by rw [hv, List.cons_append, List.cons_append]⟩
      have hlen : cs.length ≤ f := by
        simp only [List.length_cons] at hl
        omega
      simp only [replaceFuel, hs, Bool.false_eq_true, if_false]
      rw [ih cs hlen hcs]

/-- A left-to-right replace of a pattern with a unique occurrence rewrites
exactly that occurrence. -/
theorem replaceFuel_unique (pat rep B : List Char) (hpat : pat ≠ []) :
    ∀ (A : List Char)
      (_hu : ∀ u v, A ++ pat ++ B = u ++ pat ++ v → u = A)
      (fuel : Nat), (A ++ pat ++ B).length ≤ fuel →
      replaceFuel pat rep fuel (A ++ pat ++ B) = A ++ rep ++ B := by
  intro A
  induction A with
  | nil =>
    intro hu fuel hfuel
    obtain ⟨pc, pt, rfl⟩ : ∃ pc pt, pat = pc :: pt := by
      cases pat with
      | nil => exact absurd rfl hpat
      | cons pc pt => exact ⟨pc, pt, rfl⟩
    cases fuel with
    | zero =>
      exfalso
      simp only [List.nil_append, List.length_append, List.length_cons] at hfuel
      omega
    | succ f =>
      have hstart : startsWithL (pc :: pt) (([] : List Char) ++ (pc :: pt) ++ B) = true := by
        refine (startsWith_iff _ _).mpr ⟨B, ?_⟩
        simp
      have hB : ¬ OccursIn (pc :: pt) B := by
        rintro ⟨u, v, rfl⟩
        have : (pc :: pt) ++ u = ([] : List Char) :=
          hu ((pc :: pt) ++ u) v (by simp)
        simp at this
      have hshape : ([] : List Char) ++ (pc :: pt) ++ B = pc :: (pt ++ B) := by simp
      rw [hshape]
      have hstart' : startsWithL (pc :: pt) (pc :: (pt ++ B)) = true := by
        rw [← hshape]; exact hstart
      simp only [replaceFuel, hstart', if_true]
      have hdrop : (pt ++ B).drop ((pc :: pt).length - 1) = B := by
        simp only [List.length_cons, Nat.add_sub_cancel]
        exact List.drop_left' rfl
      rw [hdrop, replaceFuel_no_occ (pc :: pt) rep f B ?_ hB]
      · simp
      · simp only [List.nil_append, List.length_append, List.length_cons] at hfuel
        omega
  | cons a A' ih =>
    intro hu fuel hfuel
    cases fuel with
    | zero =>
      exfalso
      simp only [List.cons_append, List.length_cons] at hfuel
      omega
    | succ f =>
      have hshape : (a :: A') ++ pat ++ B = a :: (A' ++ pat ++ B) := by simp
      rw [hshape]
      have hstart : startsWithL pat (a :: (A' ++ pat ++ B)) = false := by
        cases hse : startsWithL pat (a :: (A' ++ pat ++ B))
        · rfl
        · exfalso
          obtain ⟨v, hv⟩ := (startsWith_iff _ _).mp hse
          have : ([] : List Char) = a :: A' :=
            hu [] v (by rw [hshape, hv]; simp)
          cases this
      simp only [replaceFuel, hstart, Bool.false_eq_true, if_false]
      have hu' : ∀ u v, A' ++ pat ++ B = u ++ pat ++ v → u = A' := by
        intro u v huv
        have : a :: u = a :: A' :=
          hu (a :: u) v (by rw [hshape, huv]; simp)
        exact (List.cons.injEq _ _ _ _ ▸ this).2
      have hflen : (A' ++ pat ++ B).length ≤ f := by
        simp only [List.cons_append, List.length_cons] at hfuel
        omega
      rw [ih hu' f hflen]
      simp

/-- `str.replace` through the wrapper, for a non-empty pattern. -/
theorem listReplace_eq_fuel (l pat rep : List Char) (hpat : pat ≠ []) :
    listReplace l pat rep = replaceFuel pat rep l.length l := by
  unfold listReplace
  rw [if_neg (by simpa using hpat)]

theorem listReplace_no_occ (l pat rep : List Char) (hpat : pat ≠ [])
    (h : ¬ OccursIn pat l) : listReplace l pat rep = l := by
  rw [listReplace_eq_fuel l pat rep hpat,
    replaceFuel_no_occ pat rep l.length l (Nat.le_refl _) h]

theorem listReplace_unique (A pat B rep : List Char) (hpat : pat ≠ [])
    (hu : ∀ u v, A ++ pat ++ B = u ++ pat ++ v → u = A) :
    listReplace (A ++ pat ++ B) pat rep = A ++ rep ++ B := by
  rw [listReplace_eq_fuel _ pat rep hpat]
  exact replaceFuel_unique pat rep B hpat A hu _ (Nat.le_refl _)

/-- Folding the per-compound replace over keys none of which occur leaves
the text unchanged. -/
theorem foldl_replace_id (rep : String → List Char) :
    ∀ (keys : List String) (t : List Char),
      (∀ r ∈ keys, r.data ≠ [] ∧ ¬ OccursIn r.data t) →
      keys.foldl (fun acc r => listReplace acc r.data (rep r)) t = t := by
  intro keys
  induction keys with
  | nil => intro t _; rfl
  | cons k ks ih =>
    intro t h
    rw [List.foldl_cons,
      listReplace_no_occ t k.data (rep k) (h k (List.mem_cons_self _ _)).1
        (h k (List.mem_cons_self _ _)).2]
    exact ih t (fun r hr => h r (List.mem_cons_of_mem _ hr))

/-! ### Facts about the compound table (verified by evaluation) -/

theorem compound_keys_nodup :
    (PORTUGUESE_COMPOUNDS.map (fun pq => pq.1)).Nodup := by decide

theorem compound_facts : ∀ pq ∈ PORTUGUESE_COMPOUNDS,
    pq.1.data ≠ [] ∧ pq.2.data ≠ [] ∧ ('_' ∉ pq.1.data) ∧ ('_' ∈ pq.2.data) ∧
    (∀ c ∈ pq.2.data, keptChar c = true ∧ pyWhitespace c = false) := by decide

theorem lookup_of_mem_nodup_keys :
    ∀ (l : List (String × String)) (p q : String),
      (p, q) ∈ l → (l.map (fun pq => pq.1)).Nodup →
      List.lookup p l = some q := by
  intro l
  induction l with
  | nil => intro p q h _; cases h
  | cons kv rest ih =>
    intro p q h hnd
    rw [List.map_cons, List.nodup_cons] at hnd
    rcases List.mem_cons.mp h with rfl | h'
    · simp [List.lookup_cons]
    · have hne : p ≠ kv.1 := by
        rintro rfl
        exact hnd.1 (List.mem_map_of_mem (fun pq => pq.1) h')
      rcases kv with ⟨k1, v1⟩
      rw [List.lookup_cons,
        show (p == k1) = false from beq_eq_false_iff_ne.mpr hne]
      exact ih p q h' hnd.2

theorem unescape_no_amp : ∀ (n : Nat) (l : List Char), '&' ∉ l →
    unescapeFuel n l = l := by
  intro n
  induction n with
  | zero => intro l _; cases l <;> rfl
  | succ f ih =>
    intro l hl
    cases l with
    | nil => rfl
    | cons c rest =>
      have hc : ¬(c = '&') := fun h => hl (h ▸ List.mem_cons_self c rest)
      simp only [unescapeFuel, if_neg hc]
      rw [ih rest (fun h => hl (List.mem_cons_of_mem c h))]

theorem htmlUnescape_no_amp (l : List Char) (h : '&' ∉ l) :
    htmlUnescape l = l := unescape_no_amp l.length l h

theorem map_pyLower_id (l : List Char) (h : ∀ c ∈ l, pyLower c = c) :
    l.map pyLower = l := by
  have h1 : List.map pyLower l = List.map id l := List.map_congr_left h
  rw [h1, List.map_id]

/-- On text containing exactly one occurrence of the compound `p` and no
occurrence of any other compound — in the original text or in the text
with `p`'s occurrence rewritten — the longest-first compound fold rewrites
exactly that occurrence to the placeholder `q`. -/
theorem replaceCompounds_single (p q : String) (A B : List Char)
    (hpq : (p, q) ∈ PORTUGUESE_COMPOUNDS)
    (hlower : ∀ c ∈ A ++ p.data ++ B, pyLower c = c)
    (honce : occCount p.data (A ++ p.data ++ B) = 1)
    (hothers : ∀ r ∈ PORTUGUESE_COMPOUNDS, r.1 ≠ p →
      occCount r.1.data (A ++ p.data ++ B) = 0 ∧
      occCount r.1.data (A ++ q.data ++ B) = 0) :
    replaceCompoundsChars (A ++ p.data ++ B) = A ++ q.data ++ B := by
  have hp_ne : p.data ≠ [] := (compound_facts (p, q) hpq).1
  have hpmem : p ∈ sortedCompoundKeys := by
    unfold sortedCompoundKeys
    exact (mem_stableSort _ _ _).mpr (List.mem_map_of_mem _ hpq)
  have hnd : sortedCompoundKeys.Nodup := by
    unfold sortedCompoundKeys
    exact ((stableSort_perm _ _).nodup_iff).mpr compound_keys_nodup
  obtain ⟨L1, L2, hsplit⟩ := List.append_of_mem hpmem
  have hnd' := hsplit ▸ hnd
  have hp_not : p ∉ L1 ++ L2 :=
    (List.nodup_cons.mp (List.nodup_middle.mp hnd')).1
  have hkey : ∀ r : String, r ∈ L1 ∨ r ∈ L2 →
      r.data ≠ [] ∧ r ≠ p ∧ ¬ OccursIn r.data (A ++ p.data ++ B) ∧
      ¬ OccursIn r.data (A ++ q.data ++ B) := by
    intro r hr
    have hrne : r ≠ p := by
      rintro rfl
      exact hp_not (List.mem_append.mpr hr)
    have hrmem : r ∈ sortedCompoundKeys := by
      rw [hsplit]
      rcases hr with h | h
      · exact List.mem_append.mpr (Or.inl h)
      · exact List.mem_append.mpr (Or.inr (List.mem_cons_of_mem _ h))
    have hrmem' : r ∈ PORTUGUESE_COMPOUNDS.map (fun pq => pq.1) := by
      have : r ∈ stableSort (fun a b => decide (b.length ≤ a.length))
          (PORTUGUESE_COMPOUNDS.map (fun pq => pq.1)) := hrmem
      exact (mem_stableSort _ _ _).mp this
    obtain ⟨rq, hrq, hfst⟩ := List.mem_map.mp hrmem'
    subst hfst
    have h0 := hothers rq hrq hrne
    exact ⟨(compound_facts rq hrq).1, hrne,
      (occCount_eq_zero_iff _ _).mp h0.1, (occCount_eq_zero_iff _ _).mp h0.2⟩
  have hlookup : List.lookup p PORTUGUESE_COMPOUNDS = some q :=
    lookup_of_mem_nodup_keys PORTUGUESE_COMPOUNDS p q hpq compound_keys_nodup
  have hu : ∀ u v, A ++ p.data ++ B = u ++ p.data ++ v → u = A :=
    unique_of_occCount_one p.data A B honce
  simp only [replaceCompoundsChars]
  rw [map_pyLower_id _ hlower, hsplit, List.foldl_append, List.foldl_cons,
    foldl_replace_id _ L1 _ (fun r hr =>
      ⟨(hkey r (Or.inl hr)).1, (hkey r (Or.inl hr)).2.2.1⟩),
    hlookup]
  show L2.foldl _ (listReplace (A ++ p.data ++ B) p.data q.data) = _
  rw [listReplace_unique A p.data B q.data hp_ne hu]
  exact foldl_replace_id _ L2 _ (fun r hr =>
    ⟨(hkey r (Or.inr hr)).1, (hkey r (Or.inr hr)).2.2.2⟩)

/-! ### Lemmas: tokenization is stable under collapsing and trimming -/

theorem splitAux_collapse (l : List Char) :
    (∀ cur, splitAux cur (collapseAux false l) = splitAux cur l) ∧
    (splitAux [] (collapseAux true l) = splitAux [] l) := by
  induction l with
  | nil => exact ⟨fun _ => rfl, rfl⟩
  | cons c cs ih =>
    obtain ⟨ihf, iht⟩ := ih
    by_cases hc : pyWhitespace c = true
    · constructor
      · intro cur
        simp only [collapseAux, if_pos hc, if_neg (by decide : ¬(false = true))]
        simp only [splitAux, if_pos (by decide : pyWhitespace ' ' = true),
          if_pos hc]
        by_cases hcur : cur.isEmpty
        · rw [if_pos hcur, if_pos hcur, iht]
        · rw [if_neg hcur, if_neg hcur, iht]
      · simp only [collapseAux, if_pos hc, eq_self_iff_true, if_true]
        rw [iht]
        simp only [splitAux, if_pos hc, List.isEmpty_nil, if_true]
    · constructor
      · intro cur
        simp only [collapseAux, if_neg hc]
        simp only [splitAux, if_neg hc]
        exact ihf (c :: cur)
      · simp only [collapseAux, if_neg hc]
        simp only [splitAux, if_neg hc]
        exact ihf [c]

theorem pySplit_collapse (l : List Char) : pySplit (collapseWs l) = pySplit l :=
  (splitAux_collapse l).1 []

theorem splitAux_allWs : ∀ (r : List Char),
    (∀ c ∈ r, pyWhitespace c = true) →
    ∀ cur, splitAux cur r = splitAux cur [] := by
  intro r
  induction r with
  | nil => intro _ _; rfl
  | cons c cs ih =>
    intro h cur
    have hc : pyWhitespace c = true := h c (List.mem_cons_self _ _)
    have hcs := ih (fun d hd => h d (List.mem_cons_of_mem _ hd))
    simp only [splitAux, if_pos hc]
    by_cases hcur : cur.isEmpty
    · rw [if_pos hcur, hcs []]
      have : cur = [] := by
        cases cur
        · rfl
        · simp at hcur
      subst this
      rfl
    · rw [if_neg hcur, hcs []]
      simp only [splitAux, if_neg hcur]
      rfl

theorem splitAux_append_absorb (r : List Char)
    (hr : ∀ cur, splitAux cur r = splitAux cur []) :
    ∀ (m : List Char) (cur : List Char),
      splitAux cur (m ++ r) = splitAux cur m := by
  intro m
  induction m with
  | nil => intro cur; exact hr cur
  | cons x m' ih =>
    intro cur
    rw [List.cons_append]
    by_cases hx : pyWhitespace x = true
    · simp only [splitAux, if_pos hx]
      by_cases hcur : cur.isEmpty
      · rw [if_pos hcur, if_pos hcur]
        exact ih []
      · rw [if_neg hcur, if_neg hcur]
        exact congrArg (fun t => cur.reverse :: t) (ih [])
    · simp only [splitAux, if_neg hx]
      exact ih (x :: cur)

theorem splitAux_dropWhile (l : List Char) :
    splitAux [] (l.dropWhile pyWhitespace) = splitAux [] l := by
  induction l with
  | nil => rfl
  | cons c cs ih =>
    by_cases hc : pyWhitespace c = true
    · rw [List.dropWhile_cons_of_pos hc, ih]
      simp [splitAux, hc]
    · rw [List.dropWhile_cons_of_neg (by simp [hc])]

theorem pySplit_pyStrip (l : List Char) : pySplit (pyStrip l) = pySplit l := by
  unfold pyStrip pySplit
  have hdecomp : l.dropWhile pyWhitespace =
      ((l.dropWhile pyWhitespace).reverse.dropWhile pyWhitespace).reverse ++
      ((l.dropWhile pyWhitespace).reverse.takeWhile pyWhitespace).reverse :=
    calc l.dropWhile pyWhitespace
        = (l.dropWhile pyWhitespace).reverse.reverse := by
          rw [List.reverse_reverse]
      _ = ((l.dropWhile pyWhitespace).reverse.takeWhile pyWhitespace ++
            (l.dropWhile pyWhitespace).reverse.dropWhile pyWhitespace).reverse := by
          rw [List.takeWhile_append_dropWhile]
      _ = ((l.dropWhile pyWhitespace).reverse.dropWhile pyWhitespace).reverse ++
          ((l.dropWhile pyWhitespace).reverse.takeWhile pyWhitespace).reverse := by
          rw [List.reverse_append]
  have hws : ∀ c ∈ ((l.dropWhile pyWhitespace).reverse.takeWhile
      pyWhitespace).reverse, pyWhitespace c = true :=
    fun c hc => List.mem_takeWhile_imp (List.mem_reverse.mp hc)
  have habs := splitAux_append_absorb _ (splitAux_allWs _ hws)
    ((l.dropWhile pyWhitespace).reverse.dropWhile pyWhitespace).reverse []
  have h1 : splitAux []
        ((l.dropWhile pyWhitespace).reverse.dropWhile pyWhitespace).reverse
      = splitAux [] (l.dropWhile pyWhitespace) := by
    conv_rhs => rw [hdecomp]
    exact habs.symm
  rw [h1]
  exact splitAux_dropWhile l

theorem splitAux_ws_append (c : Char) (hc : pyWhitespace c = true) :
    ∀ (X cur Y : List Char),
      splitAux cur (X ++ c :: Y) = splitAux cur X ++ splitAux [] Y := by
  intro X
  induction X with
  | nil =>
    intro cur Y
    simp only [List.nil_append, splitAux, if_pos hc]
    by_cases hcur : cur.isEmpty
    · have hcur' : cur = [] := by
        cases cur
        · rfl
        · simp at hcur
      subst hcur'
      simp [splitAux]
    · rw [if_neg hcur, if_neg hcur]
      rfl
  | cons x X' ih =>
    intro cur Y
    rw [List.cons_append]
    by_cases hx : pyWhitespace x = true
    · simp only [splitAux, if_pos hx]
      by_cases hcur : cur.isEmpty
      · rw [if_pos hcur, if_pos hcur]
        exact ih [] Y
      · rw [if_neg hcur, if_neg hcur, List.cons_append]
        exact congrArg (fun t => cur.reverse :: t) (ih [] Y)
    · simp only [splitAux, if_neg hx]
      exact ih (x :: cur) Y

theorem splitAux_noWs_aux : ∀ (w cur : List Char),
    (∀ c ∈ w, pyWhitespace c = false) →
    splitAux cur w = splitAux (w.reverse ++ cur) [] := by
  intro w
  induction w with
  | nil => intro cur _; rfl
  | cons c w' ih =>
    intro cur h
    have hc : pyWhitespace c = false := h c (List.mem_cons_self _ _)
    simp only [splitAux, hc, Bool.false_eq_true, if_false]
    rw [ih (c :: cur) (fun d hd => h d (List.mem_cons_of_mem _ hd)),
      List.reverse_cons, List.append_assoc, List.singleton_append]
    rfl

theorem pySplit_noWs (w : List Char) (hw : ∀ c ∈ w, pyWhitespace c = false)
    (hne : w ≠ []) : pySplit w = [w] := by
  unfold pySplit
  rw [splitAux_noWs_aux w [] hw]
  have hrev : w.reverse.isEmpty = false := by
    cases hwr : w.reverse with
    | nil => exact absurd (by simpa using congrArg List.reverse hwr) hne
    | cons a as => rfl
  simp only [List.append_nil, splitAux, hrev, Bool.false_eq_true, if_false,
    List.reverse_reverse]

theorem mem_splitAux_subset : ∀ (l cur w : List Char), w ∈ splitAux cur l →
    ∀ c ∈ w, c ∈ cur ∨ c ∈ l := by
  intro l
  induction l with
  | nil =>
    intro cur w hw c hc
    simp only [splitAux] at hw
    by_cases hcur : cur.isEmpty
    · rw [if_pos hcur] at hw
      cases hw
    · rw [if_neg hcur] at hw
      have : w = cur.reverse := by simpa using hw
      subst this
      exact Or.inl (List.mem_reverse.mp hc)
  | cons x xs ih =>
    intro cur w hw c hc
    by_cases hx : pyWhitespace x = true
    · simp only [splitAux, if_pos hx] at hw
      by_cases hcur : cur.isEmpty
      · rw [if_pos hcur] at hw
        rcases ih [] w hw c hc with h | h
        · cases h
        · exact Or.inr (List.mem_cons_of_mem _ h)
      · rw [if_neg hcur] at hw
        rcases List.mem_cons.mp hw with rfl | hw'
        · exact Or.inl (List.mem_reverse.mp hc)
        · rcases ih [] w hw' c hc with h | h
          · cases h
          · exact Or.inr (List.mem_cons_of_mem _ h)
    · simp only [splitAux, if_neg hx] at hw
      rcases ih (x :: cur) w hw c hc with h | h
      · rcases List.mem_cons.mp h with rfl | h'
        · exact Or.inr (List.mem_cons_self _ _)
        · exact Or.inl h'
      · exact Or.inr (List.mem_cons_of_mem _ h)

theorem mem_pySplit_subset (l w : List Char) (h : w ∈ pySplit l) :
    ∀ c ∈ w, c ∈ l := by
  intro c hc
  rcases mem_splitAux_subset l [] w h c hc with h1 | h1
  · cases h1
  · exact h1

theorem string_data_mk (l : List Char) : (String.mk l).data = l := rfl

theorem stripSpecials_append (X Y : List Char) :
    stripSpecials (X ++ Y) = stripSpecials X ++ stripSpecials Y :=
  List.map_append _ _ _

theorem pySplit_cons_ws (wc : Char) (hw : pyWhitespace wc = true)
    (Z : List Char) : pySplit (wc :: Z) = pySplit Z := by
  unfold pySplit
  simp [splitAux, hw]

theorem pySplit_ws_head (wc : Char) (hw : pyWhitespace wc = true)
    (X Z : List Char) :
    pySplit (X ++ wc :: Z) = pySplit X ++ pySplit Z := by
  unfold pySplit
  exact splitAux_ws_append wc hw X [] Z

theorem pySplit_append_ws_last (X : List Char) (wc : Char)
    (hw : pyWhitespace wc = true) (Z : List Char) :
    pySplit ((X ++ [wc]) ++ Z) = pySplit (X ++ [wc]) ++ pySplit Z := by
  unfold pySplit
  rw [List.append_assoc, List.singleton_append,
    splitAux_ws_append wc hw X [] Z]
  have h2 : splitAux [] (X ++ [wc]) = splitAux [] X := by
    have := splitAux_ws_append wc hw X [] []
    simpa [splitAux] using this
  rw [h2]

/-- Splitting text of the shape `sA ++ mid ++ sB` where `mid` is a
non-empty whitespace-free run and `sA`/`sB` provide whitespace (or are
empty) on the respective sides. -/
theorem pySplit_three (sA mid sB : List Char)
    (hmid_ne : mid ≠ []) (hmid_nows : ∀ c ∈ mid, pyWhitespace c = false)
    (hA : sA = [] ∨ ∃ X wc, sA = X ++ [wc] ∧ pyWhitespace wc = true)
    (hB : sB = [] ∨ ∃ wc Z, sB = wc :: Z ∧ pyWhitespace wc = true) :
    pySplit (sA ++ mid ++ sB) = pySplit sA ++ ([mid] ++ pySplit sB) := by
  have hmidB : pySplit (mid ++ sB) = [mid] ++ pySplit sB := by
    rcases hB with rfl | ⟨wc, Z, rfl, hw⟩
    · rw [List.append_nil, pySplit_noWs mid hmid_nows hmid_ne]
      rfl
    · rw [pySplit_ws_head wc hw mid Z, pySplit_noWs mid hmid_nows hmid_ne,
        pySplit_cons_ws wc hw Z]
  rcases hA with rfl | ⟨X, wc, rfl, hw⟩
  · have h0 : pySplit ([] : List Char) = ([] : List (List Char)) := rfl
    rw [h0, List.nil_append]
    exact hmidB
  · rw [List.append_assoc, pySplit_append_ws_last X wc hw (mid ++ sB), hmidB]

/-! ### Claim theorems: C5 -/

/-- Claim C5 (counterexample), two independent failures. (a) For
p = `de acordo com` (q = `de_acordo_com`) and T = `de acordo com certeza`:
T contains exactly one occurrence of p and no longer table phrase, yet q is
not a whitespace-delimited token of normalize(T) — the shorter phrase
`com certeza` is processed later and rewrites the text around the
placeholder's tail, producing the single token `de_acordo_com_certeza`.
(b) For p = `o que` and T = `o o que`: one occurrence, no overlapping
longer phrase, yet p's constituent word `o` appears as a separate token of
normalize(T). -/
theorem c5_counterexample :
    (("de acordo com", "de_acordo_com") ∈ PORTUGUESE_COMPOUNDS ∧
     occCount "de acordo com".data "de acordo com certeza".data = 1 ∧
     (∀ r ∈ PORTUGUESE_COMPOUNDS, "de acordo com".length < r.1.length →
       occCount r.1.data "de acordo com certeza".data = 0) ∧
     "de_acordo_com" ∉ pySplitStr (clean_text "de acordo com certeza")) ∧
    (("o que", "o_que") ∈ PORTUGUESE_COMPOUNDS ∧
     occCount "o que".data "o o que".data = 1 ∧
     (∀ r ∈ PORTUGUESE_COMPOUNDS, "o que".length < r.1.length →
       occCount r.1.data "o o que".data = 0) ∧
     "o".data ∈ pySplit "o que".data ∧
     "o" ∈ pySplitStr (clean_text "o o que")) := by decide

/-- Claim C5 (amended): for any compound pair (p, q) of the table and text
`A ++ p ++ B` in which every character is fixed by lowercasing and no
ampersand occurs, `p` occurs exactly once, no other table phrase occurs in
the text or in the text with the occurrence rewritten to `q`, the
characters adjoining the occurrence normalize to whitespace, and `p`'s
constituent words are not tokens of the stripped `A` or `B`: `normalize`
yields `q` as a whitespace-delimited token and yields none of `p`'s
constituent words as separate tokens. -/
theorem c5_amended (p q : String) (A B : List Char)
    (hpq : (p, q) ∈ PORTUGUESE_COMPOUNDS)
    (hlower : ∀ c ∈ A ++ p.data ++ B, pyLower c = c)
    (hamp : '&' ∉ A ++ p.data ++ B)
    (honce : occCount p.data (A ++ p.data ++ B) = 1)
    (hothers : ∀ r ∈ PORTUGUESE_COMPOUNDS, r.1 ≠ p →
      occCount r.1.data (A ++ p.data ++ B) = 0 ∧
      occCount r.1.data (A ++ q.data ++ B) = 0)
    (hbndA : boundaryOk A.getLast? = true)
    (hbndB : boundaryOk B.head? = true)
    (hconsA : ∀ w ∈ pySplit p.data, w ∉ pySplit (stripSpecials A))
    (hconsB : ∀ w ∈ pySplit p.data, w ∉ pySplit (stripSpecials B)) :
    q ∈ pySplitStr (clean_text (String.mk (A ++ p.data ++ B))) ∧
    ∀ w ∈ pySplit p.data,
      String.mk w ∉ pySplitStr (clean_text (String.mk (A ++ p.data ++ B))) := by
  obtain ⟨hp_ne, hq_ne, hp_us, hq_us, hq_chars⟩ := compound_facts (p, q) hpq
  have hq_nows : ∀ c ∈ q.data, pyWhitespace c = false :=
    fun c hc => (hq_chars c hc).2
  have hq_kept : ∀ c ∈ q.data, keptChar c = true :=
    fun c hc => (hq_chars c hc).1
  have hstrip_q : stripSpecials q.data = q.data := by
    have h1 : List.map (fun c => if keptChar c then c else ' ') q.data =
        List.map id q.data :=
      List.map_congr_left (fun c hc => by simp [hq_kept c hc])
    exact h1.trans (List.map_id _)
  have hstrip : stripSpecials (A ++ q.data ++ B) =
      stripSpecials A ++ q.data ++ stripSpecials B := by
    rw [stripSpecials_append, stripSpecials_append, hstrip_q]
  have hsa : stripSpecials A = [] ∨
      ∃ X wc, stripSpecials A = X ++ [wc] ∧ pyWhitespace wc = true := by
    cases hA0 : A.getLast? with
    | none =>
      left
      rw [List.getLast?_eq_none_iff.mp hA0]
      rfl
    | some a =>
      right
      obtain ⟨A0, rfl⟩ := List.getLast?_eq_some_iff.mp hA0
      rw [hA0] at hbndA
      refine ⟨stripSpecials A0, if keptChar a then a else ' ', ?_, ?_⟩
      · rw [stripSpecials_append]
        rfl
      · by_cases hk : keptChar a = true
        · have hws : pyWhitespace a = true := by
            simp only [boundaryOk, hk, Bool.not_true, Bool.false_or] at hbndA
            exact hbndA
          simp [hk, hws]
        · have hk' : keptChar a = false := by simpa using hk
          have h1 : (if keptChar a = true then a else ' ') = ' ' := by
            simp [hk']
          rw [h1]
          decide
  have hsb : stripSpecials B = [] ∨
      ∃ wc Z, stripSpecials B = wc :: Z ∧ pyWhitespace wc = true := by
    cases B with
    | nil => exact Or.inl rfl
    | cons b B' =>
      right
      refine ⟨if keptChar b then b else ' ', stripSpecials B', rfl, ?_⟩
      by_cases hk : keptChar b = true
      · have hws : pyWhitespace b = true := by
          simp only [List.head?_cons, boundaryOk, hk, Bool.not_true,
            Bool.false_or] at hbndB
          exact hbndB
        simp [hk, hws]
      · have hk' : keptChar b = false := by simpa using hk
        have h1 : (if keptChar b = true then b else ' ') = ' ' := by
          simp [hk']
        rw [h1]
        decide
  have htokens : pySplit (cleanChars (A ++ p.data ++ B)) =
      pySplit (stripSpecials A) ++ ([q.data] ++ pySplit (stripSpecials B)) := by
    unfold cleanChars
    rw [htmlUnescape_no_amp _ hamp, map_pyLower_id _ hlower,
      replaceCompounds_single p q A B hpq hlower honce hothers,
      pySplit_pyStrip, pySplit_collapse, hstrip]
    exact pySplit_three (stripSpecials A) q.data (stripSpecials B)
      hq_ne hq_nows hsa hsb
  have hdata : pySplitStr (clean_text (String.mk (A ++ p.data ++ B))) =
      (pySplit (cleanChars (A ++ p.data ++ B))).map String.mk := by
    unfold pySplitStr clean_text
    rw [string_data_mk, string_data_mk]
  constructor
  · rw [hdata, htokens]
    refine List.mem_map.mpr ⟨q.data, ?_, rfl⟩
    simp
  · intro w hw hmem
    rw [hdata, htokens] at hmem
    rcases List.mem_map.mp hmem with ⟨t, ht, heq⟩
    have hwt : w = t := by
      have h3 := congrArg String.data heq
      simp only [string_data_mk] at h3
      exact h3.symm
    subst hwt
    rcases List.mem_append.mp ht with h1 | h1
    · exact hconsA w hw h1
    · rcases List.mem_append.mp h1 with h2 | h2
      · have hwq : w = q.data := by simpa using h2
        have h_us_w : '_' ∈ w := by
          rw [hwq]
          exact hq_us
        exact hp_us (mem_pySplit_subset p.data w hw '_' h_us_w)
      · exact hconsB w hw h2

theorem c5_amended_witness :
    occCount "o que".data ("isso ".data ++ "o que".data ++ " sim".data) = 1 ∧
    ("o_que" ∈ pySplitStr (clean_text (String.mk
        ("isso ".data ++ "o que".data ++ " sim".data))) ∧
      ∀ w ∈ pySplit "o que".data,
        String.mk w ∉ pySplitStr (clean_text (String.mk
          ("isso ".data ++ "o que".data ++ " sim".data)))) :=
  ⟨by decide,
   c5_amended "o que" "o_que" "isso ".data " sim".data (by decide) (by decide)
     (by decide) (by decide) (by decide) (by decide) (by decide) (by decide)
     (by decide)⟩

end EbookAnalysis
